import Mathlib

/-
Formal model of the referral / fee-accrual engine.

Monetary values are embedded as integer coefficients at a fixed decimal
exponent (micro-units, 6 fractional digits). The fee splitter runs its
arithmetic in a decimal context with 12 significant digits of precision:
every arithmetic operation rounds its exact result to 12 significant
digits (half-even), and quantizing to 6 fractional digits fails
(InvalidOperation) when the resulting coefficient needs more than 12
digits. The model below tracks each intermediate value as a pair
(coefficient, shift) relative to a fixed base exponent, exactly mirroring
the coefficient/exponent arithmetic of the source.
-/

/-- Fueled count of decimal digits in excess of 12: 0 when the coefficient
is below 10^12, otherwise one more than the excess of the coefficient
divided by ten. The fuel argument makes the recursion structural; calling
it with fuel equal to the coefficient is always sufficient. -/
def digExcess : ℕ → ℕ → ℕ
  | 0, _ => 0
  | fuel+1, c => if c < 10^12 then 0 else digExcess fuel (c / 10) + 1

/-- Number of digits of a coefficient beyond the 12-significant-digit
precision of the decimal context. -/
def excess (c : ℕ) : ℕ := digExcess c c

/-- Round n / d to the nearest integer, ties to even (the decimal
context's default rounding). -/
def roundHE (n d : ℕ) : ℕ :=
  if 2 * (n % d) < d then n / d
  else if d < 2 * (n % d) then n / d + 1
  else if n / d % 2 = 0 then n / d else n / d + 1

/-- Round a non-negative coefficient to at most 12 significant digits,
returning the rounded coefficient and the number of digits dropped
(the increase of the exponent). -/
def ctxRound12 (c : ℕ) : ℕ × ℕ :=
  let t := excess c
  (roundHE c (10^t), t)

/-- Context-rounded product of the fee (6 fractional digits) with a rate
whose coefficient is r at exponent -2; the exact product sits at
exponent -8, so the result value is coef * 10^(shift - 8). -/
def mul12 (f r : ℕ) : ℕ × ℕ := ctxRound12 (f * r)

/-- Cap check of the quantize step: a quantized coefficient that needs
more than 12 digits signals InvalidOperation. -/
def quantCap (q : ℕ) : Option ℕ :=
  if q < 10^12 then some q else none

/-- Quantize a context-rounded product (value coef * 10^(shift-8)) down
to 6 fractional digits. Fails (InvalidOperation) when the quantized
coefficient needs more than 12 digits. -/
def quant6 (p : ℕ × ℕ) : Option ℕ :=
  quantCap (if 2 ≤ p.2 then p.1 * 10^(p.2 - 2) else p.1 / 10^(2 - p.2))

/-- Context addition of a running sum (value x.1 * 10^(x.2 - 6)) and a
quantized component at 6 fractional digits: exact sum at exponent -6,
then rounded to 12 significant digits. -/
def addCtx (x : ℕ × ℕ) (b : ℕ) : ℕ × ℕ := ctxRound12 (x.1 * 10^x.2 + b)

/-- Round a signed coefficient to at most 12 significant digits
(half-even on the absolute value, sign preserved). -/
def ctxRound12Z (c : ℤ) : ℤ × ℕ :=
  let t := excess c.natAbs
  (c.sign * roundHE c.natAbs (10^t), t)

/-- Context subtraction: fee minus the context sum of the payout
components, both at exponent -6; the exact difference is rounded to 12
significant digits. Result value is coef * 10^(shift - 6). -/
def subCtx (f : ℕ) (x : ℕ × ℕ) : ℤ × ℕ :=
  ctxRound12Z ((f : ℤ) - (x.1 : ℤ) * 10^x.2)

/-- Signed version of the quantize cap check. -/
def quantCapZ (q : ℤ) : Option ℤ :=
  if q.natAbs < 10^12 then some q else none

/-- Quantize the treasury residual (value coef * 10^(shift-6)) to 6
fractional digits; its exponent is never finer than -6, so the value is
preserved, but the 12-digit coefficient cap still applies. -/
def quantT6 (p : ℤ × ℕ) : Option ℤ :=
  quantCapZ (p.1 * 10^p.2)

/-- Python truth-value of an id: an id is considered present in a
conditional when it is truthy (non-empty string, non-zero integer). -/
class PyTruthy (α : Type) where
  truthy : α → Bool

instance : PyTruthy String := ⟨fun s => s != ""⟩

instance : PyTruthy Nat := ⟨fun n => n != 0⟩

/-- Truthiness test of a list element: the index is in bounds and the
element there is a truthy (non-null) id. -/
def linPresent {α : Type} [PyTruthy α] (l : List (Option α)) (i : ℕ) : Bool :=
  match l[i]? with
  | some (some a) => PyTruthy.truthy a
  | _ => false

/-- The five split amounts, coefficients at 6 fractional digits. -/
structure Splits where
  cashback : ℕ
  l1 : ℕ
  l2 : ℕ
  l3 : ℕ
  treasury : ℤ
  deriving DecidableEq, Repr

/-- The fee splitter. Input fee is a non-negative amount quantized at 6
fractional digits (coefficient in micro-units); the lineage is a list of
optional ancestor ids. Rates: cashback 0.10, levels 0.30 / 0.03 / 0.02,
residual to treasury. Returns none when the decimal context raises
(quantized coefficient beyond 12 digits). -/
def feeEngine {α : Type} [PyTruthy α] (f : ℕ) (lineage : List (Option α)) : Option Splits :=
  match quant6 (mul12 f 10) with
  | none => none
  | some cb =>
    match (if linPresent lineage 0 then quant6 (mul12 f 30) else some 0) with
    | none => none
    | some l1 =>
      match (if linPresent lineage 1 then quant6 (mul12 f 3) else some 0) with
      | none => none
      | some l2 =>
        match (if linPresent lineage 2 then quant6 (mul12 f 2) else some 0) with
        | none => none
        | some l3 =>
          match quantT6 (subCtx f (addCtx (addCtx (addCtx (cb, 0) l1) l2) l3)) with
          | none => none
          | some tr => some ⟨cb, l1, l2, l3, tr⟩

/-- The in-memory referral mapping child -> parent (a Python dict whose
stored values are parent ids). Lookup follows dict get semantics. -/
abbrev Ref := List (String × String)

/-- Dict lookup: the parent of x, or none when x has no entry. -/
def refGet (r : Ref) (x : String) : Option String :=
  (r.find? (fun p => p.1 == x)).map (fun p => p.2)

/-- n-step ancestor iteration of the parent map: follow the parent
pointer n times from x (none once the chain has ended at a root). -/
def iterGet (r : Ref) : ℕ → String → Option String
  | 0, x => some x
  | n+1, x =>
    match refGet r x with
    | none => none
    | some p => iterGet r n p

/-- The parent-of relation is a forest: no chain of parent steps returns
to its starting point. -/
def Forest (r : Ref) : Prop := ∀ x n, iterGet r (n + 1) x ≠ some x

/-- The cycle-check walk of register_referral: starting at cur, repeatedly
follow parents; some true when the walk reaches child (a cycle would be
created), some false when it reaches a root, none when the fuel runs out
(the unbounded Python while-loop has not yet terminated). -/
def walkFuel (r : Ref) : ℕ → String → String → Option Bool
  | 0, _, _ => none
  | fuel+1, child, cur =>
    if cur = child then some true
    else
      match refGet r cur with
      | none => some false
      | some p => walkFuel r fuel child p

/-- register_referral: fail when the child already has a referrer; walk up
from the proposed parent and fail when the walk reaches the child;
otherwise record child -> parent. Returns the (possibly updated) mapping
and a success flag; on failure the mapping is returned unchanged, since
the source raises before mutating. Fuel length+1 always suffices on a
forest (see the termination theorem below). -/
def registerReferral (child parent : String) (r : Ref) : Ref × Bool :=
  if (refGet r child).isSome then (r, false)
  else
    match walkFuel r (r.length + 1) child parent with
    | some false => ((child, parent) :: r, true)
    | _ => (r, false)

/-- Fold a sequence of register_referral calls over a mapping, keeping the
resulting mapping whether each call succeeds or fails. -/
def applyCalls (calls : List (String × String)) (r : Ref) : Ref :=
  calls.foldl (fun acc c => (registerReferral c.1 c.2 acc).1) r

/-- Lineage resolution: follow the parent map up to n levels from cur;
a missing or falsy (empty) parent ends the chain and the remaining
positions are filled with none, so the result always has length n. -/
def getLineageGo (r : Ref) : ℕ → String → List (Option String)
  | 0, _ => []
  | n+1, cur =>
    match refGet r cur with
    | none => List.replicate (n + 1) none
    | some p =>
      if p = "" then List.replicate (n + 1) none
      else some p :: getLineageGo r n p

/-- get_lineage with the default of three levels. -/
def getLineage (r : Ref) (trader : String) : List (Option String) :=
  getLineageGo r 3 trader

/-- A trade event; the fee amount is a non-negative decimal at 6
fractional digits, held as its micro-unit coefficient. -/
structure TradeEvent (α : Type) where
  tradeId : String
  trader : α
  chain : String
  feeToken : String
  feeAmount : ℕ
  executedAt : ℤ
  deriving DecidableEq

/-- A journal (payout) entry of the in-memory engine. -/
structure JEntry where
  tradeId : String
  chain : String
  beneficiary : String
  kind : String
  amount : ℤ
  token : String
  executedAt : ℤ
  deriving DecidableEq

/-- The in-memory tables handled by handle_trade: the processed-trades
set, the append-only journal and the aggregate ledger mapping
(user, kind) to a total. -/
structure MemState where
  processed : List (String × String)
  journal : List JEntry
  ledger : List ((String × String) × ℤ)
  deriving DecidableEq

/-- Dict get with default 0 on the ledger. -/
def ledgerGet (l : List ((String × String) × ℤ)) (k : String × String) : ℤ :=
  match l.find? (fun p => p.1 == k) with
  | some p => p.2
  | none => 0

/-- Dict assignment on the ledger: overwrite the entry when the key is
present, append it otherwise. -/
def ledgerSet (l : List ((String × String) × ℤ)) (k : String × String) (v : ℤ) :
    List ((String × String) × ℤ) :=
  if (l.find? (fun p => p.1 == k)).isSome then
    l.map (fun p => if p.1 == k then (k, v) else p)
  else l ++ [(k, v)]

def TREASURY_USER_ID : String := "TREASURY"

/-- The result dict of handle_trade. -/
structure TradeResult (α : Type) where
  status : String
  tradeId : String
  lineage : Option (List (Option α))
  splits : Option Splits
  deriving DecidableEq

/-- The payout list of handle_trade: trader cashback, one commission per
present lineage level, and the treasury residual; each included only if
its amount is strictly positive (and, for commissions, the ancestor slot
is not None). -/
def buildPayouts {α : Type} (trader : α) (o1 o2 o3 : Option α) (s : Splits)
    (treasuryId : α) : List (α × String × ℤ) :=
  (if 0 < s.cashback then [(trader, "cashback", (s.cashback : ℤ))] else []) ++
  (match o1 with
   | some a => if 0 < s.l1 then [(a, "commission_l1", (s.l1 : ℤ))] else []
   | none => []) ++
  (match o2 with
   | some a => if 0 < s.l2 then [(a, "commission_l2", (s.l2 : ℤ))] else []
   | none => []) ++
  (match o3 with
   | some a => if 0 < s.l3 then [(a, "commission_l3", (s.l3 : ℤ))] else []
   | none => []) ++
  (if 0 < s.treasury then [(treasuryId, "treasury", s.treasury)] else [])

/-- Apply one payout: append its journal entry and bump the ledger
aggregate of (beneficiary, kind). -/
def applyPayout (e : TradeEvent String) (st : MemState) (p : String × String × ℤ) : MemState :=
  { st with
    journal := st.journal ++
      [⟨e.tradeId, e.chain, p.1, p.2.1, p.2.2, e.feeToken, e.executedAt⟩],
    ledger := ledgerSet st.ledger (p.1, p.2.1) (ledgerGet st.ledger (p.1, p.2.1) + p.2.2) }

/-- handle_trade: idempotency check on (trade_id, chain), mark processed,
resolve lineage, compute splits, then apply the payouts to journal and
ledger. The returned result is none when the fee splitter raises; in that
case the key has already been added to the processed set (the set is
mutated in place before the computation) while journal and ledger are
untouched. -/
def handleTrade (ref : Ref) (e : TradeEvent String) (st : MemState) :
    MemState × Option (TradeResult String) :=
  if (e.tradeId, e.chain) ∈ st.processed then
    (st, some ⟨"duplicate", e.tradeId, none, none⟩)
  else
    match feeEngine e.feeAmount (getLineage ref e.trader) with
    | none => ({ st with processed := (e.tradeId, e.chain) :: st.processed }, none)
    | some s =>
      match getLineage ref e.trader with
      | [o1, o2, o3] =>
        ((buildPayouts e.trader o1 o2 o3 s TREASURY_USER_ID).foldl (applyPayout e)
            { st with processed := (e.tradeId, e.chain) :: st.processed },
          some ⟨"applied", e.tradeId, some (getLineage ref e.trader), some s⟩)
      | _ => ({ st with processed := (e.tradeId, e.chain) :: st.processed }, none)

/-- A row of the users table (the fields the engine reads). -/
structure URow where
  id : ℕ
  referrerId : Option ℕ
  isTreasury : Bool
  deriving DecidableEq

/-- A row of the trades table; pk is the surrogate id. -/
structure TRow where
  pk : ℕ
  tradeId : String
  chain : String
  trader : ℕ
  feeToken : String
  feeAmount : ℕ
  executedAt : ℤ
  deriving DecidableEq

/-- A row of the accrual_entries journal. -/
structure DbEntry where
  tradePk : ℕ
  chain : String
  beneficiary : ℕ
  kind : String
  token : String
  amount : ℤ
  executedAt : ℤ
  deriving DecidableEq

/-- A row of the accrual_ledger aggregate. -/
structure LRow where
  user : ℕ
  kind : String
  token : String
  accrued : ℤ
  claimed : ℤ
  deriving DecidableEq

/-- A payout_batches row. -/
structure Batch where
  user : ℕ
  token : String
  amount : ℤ
  status : String
  deriving DecidableEq

/-- The relational store. -/
structure DBState where
  users : List URow
  trades : List TRow
  entries : List DbEntry
  ledger : List LRow
  batches : List Batch
  deriving DecidableEq

/-- Idempotent trade insert keyed by (trade_id, chain): when a row with
that key exists, return its pk and created = false with no write;
otherwise append the row with a fresh serial pk. -/
def ensureTradeRow (st : DBState) (e : TradeEvent ℕ) : DBState × ℕ × Bool :=
  match st.trades.find? (fun t => t.tradeId == e.tradeId && t.chain == e.chain) with
  | some t => (st, t.pk, false)
  | none =>
    ({ st with trades := st.trades ++
        [⟨st.trades.length + 1, e.tradeId, e.chain, e.trader, e.feeToken, e.feeAmount,
          e.executedAt⟩] },
      st.trades.length + 1, true)

/-- users lookup by id. -/
def userFind (users : List URow) (uid : ℕ) : Option URow :=
  users.find? (fun u => u.id == uid)

/-- DB-backed lineage: follow referrer_id up to n levels; an unknown user
raises (none); a null referrer_id pads the remaining levels. -/
def getLineageDbGo (users : List URow) : ℕ → ℕ → Option (List (Option ℕ))
  | 0, _ => some []
  | n+1, cur =>
    match userFind users cur with
    | none => none
    | some u =>
      match u.referrerId with
      | none => some (List.replicate (n + 1) none)
      | some p => (getLineageDbGo users n p).map (fun rest => some p :: rest)

/-- get_lineage_db with the default of three levels. -/
def getLineageDb (users : List URow) (trader : ℕ) : Option (List (Option ℕ)) :=
  getLineageDbGo users 3 trader

/-- Ledger upsert: accrued_amount += delta for (user, kind, token),
creating the row (claimed 0) when absent. -/
def upsertLedgerDelta (led : List LRow) (u : ℕ) (k tok : String) (amt : ℤ) : List LRow :=
  if (led.find? (fun r => r.user == u && r.kind == k && r.token == tok)).isSome then
    led.map (fun r =>
      if r.user == u && r.kind == k && r.token == tok then
        { r with accrued := r.accrued + amt }
      else r)
  else led ++ [⟨u, k, tok, amt, 0⟩]

/-- Apply one payout in the DB transaction: insert the journal row and
upsert the ledger aggregate. -/
def applyPayoutDb (e : TradeEvent ℕ) (pk : ℕ) (st : DBState) (p : ℕ × String × ℤ) : DBState :=
  { st with
    entries := st.entries ++ [⟨pk, e.chain, p.1, p.2.1, e.feeToken, p.2.2, e.executedAt⟩],
    ledger := upsertLedgerDelta st.ledger p.1 p.2.1 e.feeToken p.2.2 }

/-- The DB-backed trade handler body (one transaction). none models an
exception, in which case the transaction rolls back and the store is
unchanged. A duplicate (trade_id, chain) returns with no writes. -/
def handleTradeDbInTx (st : DBState) (e : TradeEvent ℕ) :
    Option (TradeResult ℕ × DBState) :=
  match ensureTradeRow st e with
  | (st1, pk, created) =>
    if !created then some (⟨"duplicate", e.tradeId, none, none⟩, st1)
    else
      match getLineageDb st1.users e.trader with
      | none => none
      | some lin =>
        match feeEngine e.feeAmount lin with
        | none => none
        | some s =>
          match lin with
          | [o1, o2, o3] =>
            match st1.users.find? (fun u => u.isTreasury) with
            | none => none
            | some tu =>
              some (⟨"applied", e.tradeId, some lin, some s⟩,
                (buildPayouts e.trader o1 o2 o3 s tu.id).foldl (applyPayoutDb e pk) st1)
          | _ => none

/-- The accrual kinds a user can claim (repositories.CLAIMABLE_KINDS);
treasury is deliberately not claimable. -/
def CLAIMABLE_KINDS : List String :=
  ["cashback", "commission_l1", "commission_l2", "commission_l3"]

/-- The total perform_claim computes over the locked rows: positive
unclaimed balances of claimable kinds; treasury rows and rows with
non-positive unclaimed are skipped. -/
def claimableTotal (rows : List LRow) : ℤ :=
  rows.foldl (fun acc r =>
    if CLAIMABLE_KINDS.contains r.kind && decide (0 < r.accrued - r.claimed) then
      acc + (r.accrued - r.claimed)
    else acc) 0

/-- The row transformation of perform_claim's UPDATE: set
claimed_amount = accrued_amount on a row matching the user, the token
and a claimable kind; any other row is returned unchanged. -/
def claimUpdF (u : ℕ) (tok : String) (r : LRow) : LRow :=
  if r.user == u && r.token == tok && CLAIMABLE_KINDS.contains r.kind then
    { r with claimed := r.accrued }
  else r

/-- perform_claim's UPDATE applied to the whole ledger table. -/
def claimUpdate (led : List LRow) (u : ℕ) (tok : String) : List LRow :=
  led.map (claimUpdF u tok)

/-- perform_claim: read the ledger rows for (user, token); error when
there are none; total the positive unclaimed amounts over the claimable
kinds; error when the total is not positive; otherwise set
claimed = accrued on the claimable rows and append a pending payout
batch for the total. none models the raised ValueError (the transaction
rolls back, so the store is returned solely on success). -/
def performClaim (st : DBState) (u : ℕ) (tok : String) : Option (ℤ × DBState) :=
  if (st.ledger.filter (fun r => r.user == u && r.token == tok)).isEmpty then none
  else if claimableTotal (st.ledger.filter (fun r => r.user == u && r.token == tok)) ≤ 0 then
    none
  else
    some (claimableTotal (st.ledger.filter (fun r => r.user == u && r.token == tok)),
      { st with
        ledger := claimUpdate st.ledger u tok,
        batches := st.batches ++
          [⟨u, tok, claimableTotal (st.ledger.filter (fun r => r.user == u && r.token == tok)),
            "pending"⟩] })

/-- The two 400 responses of the claim preview endpoint. -/
inductive PreviewErr where
  | noRows
  | nothingToClaim
  deriving DecidableEq

/-- The unclaimed total of the claim preview endpoint: over claimable
kinds, accrued - claimed clipped at zero (the defensive branch),
non-claimable kinds skipped. -/
def previewTotal (rows : List LRow) : ℤ :=
  rows.foldl (fun acc r =>
    if CLAIMABLE_KINDS.contains r.kind then
      acc + max (r.accrued - r.claimed) 0
    else acc) 0

/-- referral_claim (the ui-only preview, app.py): read the ledger rows
for (user, token); 400 when there are none; 400 nothing-to-claim when
the clipped unclaimed total is not positive; otherwise return the total.
It mutates nothing. -/
def referralClaim (led : List LRow) (u : ℕ) (tok : String) : Except PreviewErr ℤ :=
  if (led.filter (fun r => r.user == u && r.token == tok)).isEmpty then
    Except.error PreviewErr.noRows
  else if previewTotal (led.filter (fun r => r.user == u && r.token == tok)) ≤ 0 then
    Except.error PreviewErr.nothingToClaim
  else Except.ok (previewTotal (led.filter (fun r => r.user == u && r.token == tok)))

/-- The kinds the earnings endpoint reports (app.KNOWN_KINDS). -/
def KNOWN_KINDS : List String :=
  ["cashback", "commission_l1", "commission_l2", "commission_l3", "treasury"]

/-- The windowed WHERE clause on executed_at: each bound constrains only
when supplied; the window is half-open, from inclusive, to exclusive. -/
def windowOK (fromT toT : Option ℤ) (t : ℤ) : Bool :=
  (match fromT with
   | some a => decide (a ≤ t)
   | none => true) &&
  (match toT with
   | some b => decide (t < b)
   | none => true)

/-- The GROUP BY key of the windowed aggregation. -/
def keyOf (e : DbEntry) : String × String := (e.kind, e.token)

/-- First-occurrence deduplication of the group keys. -/
def dedupGo (acc : List (String × String)) : List (String × String) → List (String × String)
  | [] => acc
  | kk :: ks => if acc.contains kk then dedupGo acc ks else dedupGo (acc ++ [kk]) ks

/-- SUM(amount) of the journal rows carrying one group key. -/
def keySum (kk : String × String) : List DbEntry → ℤ
  | [] => 0
  | e :: es => (if keyOf e = kk then e.amount else 0) + keySum kk es

/-- SELECT kind, token, SUM(amount) ... GROUP BY kind, token: one row per
distinct (kind, token) with the summed amount. -/
def groupRows (rows : List DbEntry) : List (String × String × ℤ) :=
  (dedupGo [] (rows.map keyOf)).map (fun kk => (kk.1, kk.2, keySum kk rows))

/-- The grouped rows the windowed earnings query fetches: journal entries
of the user inside the window, grouped by kind and token. -/
def earningsRows (entries : List DbEntry) (u : ℕ) (fromT toT : Option ℤ) :
    List (String × String × ℤ) :=
  groupRows (entries.filter (fun e => e.beneficiary == u && windowOK fromT toT e.executedAt))

/-- The three per-kind maps of the earnings response. -/
structure EarnResp where
  totals : String → ℤ
  claimed : String → ℤ
  unclaimed : String → ℤ

/-- The totals loop of the windowed path: a zero-filled dict over
KNOWN_KINDS, each grouped sum added onto its kind, unknown kinds
skipped. -/
def foldTotals (gs : List (String × String × ℤ)) : String → ℤ :=
  gs.foldl (fun tot g =>
    if KNOWN_KINDS.contains g.1 then Function.update tot g.1 (tot g.1 + g.2.2) else tot)
    (fun _ => 0)

/-- The windowed branch of referral_earnings: aggregate the journal over
the window; an empty result returns all-zero maps; otherwise totals come
from the grouped sums, claimed is identically zero and
unclaimed = totals - claimed. -/
def referralEarningsRange (entries : List DbEntry) (u : ℕ) (fromT toT : Option ℤ) : EarnResp :=
  if (earningsRows entries u fromT toT).isEmpty then
    ⟨fun _ => 0, fun _ => 0, fun _ => 0⟩
  else
    ⟨foldTotals (earningsRows entries u fromT toT),
     fun _ => 0,
     fun k => foldTotals (earningsRows entries u fromT toT) k - 0⟩

/-- The all-time totals/claimed loop over the user's ledger rows. -/
def foldLedgerTC (rows : List LRow) : (String → ℤ) × (String → ℤ) :=
  rows.foldl (fun tc r =>
    if KNOWN_KINDS.contains r.kind then
      (Function.update tc.1 r.kind (tc.1 r.kind + r.accrued),
       Function.update tc.2 r.kind (tc.2 r.kind + r.claimed))
    else tc)
    (fun _ => 0, fun _ => 0)

/-- The all-time branch of referral_earnings, read from the ledger. -/
def referralEarningsAll (led : List LRow) (u : ℕ) : EarnResp :=
  if (led.filter (fun r => r.user == u)).isEmpty then ⟨fun _ => 0, fun _ => 0, fun _ => 0⟩
  else
    ⟨(foldLedgerTC (led.filter (fun r => r.user == u))).1,
     (foldLedgerTC (led.filter (fun r => r.user == u))).2,
     fun k => (foldLedgerTC (led.filter (fun r => r.user == u))).1 k -
       (foldLedgerTC (led.filter (fun r => r.user == u))).2 k⟩

/-- referral_earnings: the windowed journal aggregation when at least one
bound is supplied, the all-time ledger read otherwise. -/
def referralEarnings (entries : List DbEntry) (led : List LRow) (u : ℕ)
    (fromT toT : Option ℤ) : EarnResp :=
  if fromT.isSome || toT.isSome then referralEarningsRange entries u fromT toT
  else referralEarningsAll led u

/-- Sum of the grouped sums attached to one kind. -/
def kindSum (k : String) : List (String × String × ℤ) → ℤ
  | [] => 0
  | g :: gs => (if g.1 = k then g.2.2 else 0) + kindSum k gs

/-- Direct per-kind sum over journal rows. -/
def entrySum (k : String) : List DbEntry → ℤ
  | [] => 0
  | e :: es => (if e.kind = k then e.amount else 0) + entrySum k es

/-- Per-kind sum of per-key sums over a key list. -/
def keyKindSum (k : String) (rows : List DbEntry) : List (String × String) → ℤ
  | [] => 0
  | kk :: ks => (if kk.1 = k then keySum kk rows else 0) + keyKindSum k rows ks

/-- One journal row's contribution across a key list. -/
def hitAmt (k : String) (e : DbEntry) : List (String × String) → ℤ
  | [] => 0
  | kk :: ks => (if kk.1 = k ∧ keyOf e = kk then e.amount else 0) + hitAmt k e ks

/-! ### Arithmetic facts about the decimal context -/
lemma roundHE_one (n : ℕ) : roundHE n 1 = n := by
  simp [roundHE, Nat.mod_one, Nat.div_one]

lemma roundHE_ge (n d : ℕ) : n / d ≤ roundHE n d := by
  unfold roundHE
  split
  · exact le_rfl
  · split
    · omega
    · split
      · exact le_rfl
      · omega

lemma roundHE_mul_le (n d : ℕ) (hd : 0 < d) : 2 * (d * roundHE n d) ≤ 2 * n + d := by
  have hqr : d * (n / d) + n % d = n := Nat.div_add_mod n d
  have hrd : n % d < d := Nat.mod_lt n hd
  have hexp : d * (n / d + 1) = d * (n / d) + d := by ring
  unfold roundHE
  split
  · rename_i h1
    generalize hM : d * (n / d) = M at *
    generalize hB : n % d = B at *
    omega
  · rename_i h1
    split
    · rename_i h2
      rw [hexp]
      generalize hM : d * (n / d) = M at *
      generalize hB : n % d = B at *
      omega
    · rename_i h2
      split
      · generalize hM : d * (n / d) = M at *
        generalize hB : n % d = B at *
        omega
      · rw [hexp]
        generalize hM : d * (n / d) = M at *
        generalize hB : n % d = B at *
        omega

lemma digExcess_spec : ∀ fuel c, c ≤ fuel →
    c < 10 ^ (12 + digExcess fuel c) ∧
      (digExcess fuel c = 0 ∨ 10 ^ (11 + digExcess fuel c) ≤ c) := by
  intro fuel
  induction fuel with
  | zero =>
    intro c hc
    have hc0 : c = 0 := by omega
    subst hc0
    exact ⟨by norm_num [digExcess], Or.inl rfl⟩
  | succ fuel ih =>
    intro c hc
    by_cases h : c < 10 ^ 12
    · have hz : digExcess (fuel + 1) c = 0 := by
        simp only [digExcess]
        rw [if_pos h]
      rw [hz]
      exact ⟨lt_of_lt_of_le h (by norm_num), Or.inl rfl⟩
    · have hstep : digExcess (fuel + 1) c = digExcess fuel (c / 10) + 1 := by
        simp only [digExcess]
        rw [if_neg h]
      have hc10 : c / 10 ≤ fuel := by
        have hpos : 0 < c := by
          have h12 : (0:ℕ) < 10 ^ 12 := by norm_num
          omega
        have := Nat.div_lt_self hpos (by norm_num : (1:ℕ) < 10)
        omega
      obtain ⟨ha, hb⟩ := ih (c / 10) hc10
      rw [hstep]
      constructor
      · have hpow : (10:ℕ) ^ (12 + (digExcess fuel (c / 10) + 1)) =
            10 * 10 ^ (12 + digExcess fuel (c / 10)) := by ring
        rw [hpow]
        omega
      · right
        have hpow : (10:ℕ) ^ (11 + (digExcess fuel (c / 10) + 1)) =
            10 * 10 ^ (11 + digExcess fuel (c / 10)) := by ring
        rw [hpow]
        rcases hb with hb0 | hble
        · rw [hb0]
          have he : (10:ℕ) * 10 ^ (11 + 0) = 10 ^ 12 := by norm_num
          rw [he]
          omega
        · omega

lemma excess_lt (c : ℕ) : c < 10 ^ (12 + excess c) :=
  (digExcess_spec c c le_rfl).1

lemma excess_ge (c : ℕ) : excess c = 0 ∨ 10 ^ (11 + excess c) ≤ c :=
  (digExcess_spec c c le_rfl).2

lemma excess_eq_zero {c : ℕ} (h : c < 10 ^ 12) : excess c = 0 := by
  cases c with
  | zero => rfl
  | succ n =>
    show digExcess (n + 1) (n + 1) = 0
    simp only [digExcess]
    rw [if_pos h]

lemma ctxRound12_le (c : ℕ) :
    2 * 10 ^ 11 * ((ctxRound12 c).1 * 10 ^ (ctxRound12 c).2) ≤ (2 * 10 ^ 11 + 1) * c := by
  unfold ctxRound12
  rcases excess_ge c with h0 | hge
  · rw [h0]
    simp only [pow_zero, roundHE_one, mul_one]
    exact mul_le_mul_right' (by norm_num) c
  · have hmul := roundHE_mul_le c (10 ^ excess c) (by positivity)
    have hstep : (10:ℕ) ^ (11 + excess c) = 10 ^ 11 * 10 ^ excess c := by ring
    rw [hstep] at hge
    calc 2 * 10 ^ 11 * (roundHE c (10 ^ excess c) * 10 ^ excess c)
        = 10 ^ 11 * (2 * (10 ^ excess c * roundHE c (10 ^ excess c))) := by ring
      _ ≤ 10 ^ 11 * (2 * c + 10 ^ excess c) := mul_le_mul_left' hmul _
      _ = 2 * 10 ^ 11 * c + 10 ^ 11 * 10 ^ excess c := by ring
      _ ≤ 2 * 10 ^ 11 * c + c := by omega
      _ = (2 * 10 ^ 11 + 1) * c := by ring

lemma ctxRound12_exact {c : ℕ} (h : c < 10 ^ 12) : ctxRound12 c = (c, 0) := by
  unfold ctxRound12
  rw [excess_eq_zero h]
  simp [roundHE_one]

lemma quantCap_some {q v : ℕ} (h : quantCap q = some v) : v = q ∧ q < 10 ^ 12 := by
  unfold quantCap at h
  split at h
  · exact ⟨(Option.some.inj h).symm, by assumption⟩
  · exact Option.noConfusion h

lemma quantCapZ_some {q v : ℤ} (h : quantCapZ q = some v) : v = q ∧ q.natAbs < 10 ^ 12 := by
  unfold quantCapZ at h
  split at h
  · exact ⟨(Option.some.inj h).symm, by assumption⟩
  · exact Option.noConfusion h

lemma quant6_some_bound {f r v : ℕ} (h : quant6 (mul12 f r) = some v) :
    v < 10 ^ 12 ∧ 200 * 10 ^ 11 * v ≤ (2 * 10 ^ 11 + 1) * (f * r) := by
  unfold quant6 mul12 at h
  obtain ⟨hv, hcap⟩ := quantCap_some h
  subst hv
  refine ⟨hcap, ?_⟩
  have h100 : 100 * (if 2 ≤ (ctxRound12 (f * r)).2 then
        (ctxRound12 (f * r)).1 * 10 ^ ((ctxRound12 (f * r)).2 - 2)
      else (ctxRound12 (f * r)).1 / 10 ^ (2 - (ctxRound12 (f * r)).2)) ≤
      (ctxRound12 (f * r)).1 * 10 ^ (ctxRound12 (f * r)).2 := by
    split
    · rename_i h2
      have hp : (10:ℕ) ^ (ctxRound12 (f * r)).2 = 10 ^ ((ctxRound12 (f * r)).2 - 2) * 100 := by
        conv_lhs => rw [show (ctxRound12 (f * r)).2 = (ctxRound12 (f * r)).2 - 2 + 2 by omega]
        rw [pow_add]
        norm_num
      rw [hp]
      exact le_of_eq (by ring)
    · rename_i h2
      have hdiv : (ctxRound12 (f * r)).1 / 10 ^ (2 - (ctxRound12 (f * r)).2) *
          10 ^ (2 - (ctxRound12 (f * r)).2) ≤ (ctxRound12 (f * r)).1 :=
        Nat.div_mul_le_self _ _
      have hsplit : (10:ℕ) ^ (2 - (ctxRound12 (f * r)).2) * 10 ^ (ctxRound12 (f * r)).2 = 100 := by
        rw [← pow_add, show 2 - (ctxRound12 (f * r)).2 + (ctxRound12 (f * r)).2 = 2 by omega]
        norm_num
      calc 100 * ((ctxRound12 (f * r)).1 / 10 ^ (2 - (ctxRound12 (f * r)).2))
          = (ctxRound12 (f * r)).1 / 10 ^ (2 - (ctxRound12 (f * r)).2) *
              10 ^ (2 - (ctxRound12 (f * r)).2) * 10 ^ (ctxRound12 (f * r)).2 := by
            rw [mul_assoc, hsplit]
            ring
        _ ≤ (ctxRound12 (f * r)).1 * 10 ^ (ctxRound12 (f * r)).2 :=
            mul_le_mul_right' hdiv _
  calc 200 * 10 ^ 11 * (if 2 ≤ (ctxRound12 (f * r)).2 then
        (ctxRound12 (f * r)).1 * 10 ^ ((ctxRound12 (f * r)).2 - 2)
      else (ctxRound12 (f * r)).1 / 10 ^ (2 - (ctxRound12 (f * r)).2))
      = 2 * 10 ^ 11 * (100 * (if 2 ≤ (ctxRound12 (f * r)).2 then
          (ctxRound12 (f * r)).1 * 10 ^ ((ctxRound12 (f * r)).2 - 2)
        else (ctxRound12 (f * r)).1 / 10 ^ (2 - (ctxRound12 (f * r)).2))) := by ring
    _ ≤ 2 * 10 ^ 11 * ((ctxRound12 (f * r)).1 * 10 ^ (ctxRound12 (f * r)).2) :=
        mul_le_mul_left' h100 _
    _ ≤ (2 * 10 ^ 11 + 1) * (f * r) := ctxRound12_le (f * r)

lemma addCtx_le (x : ℕ × ℕ) (b : ℕ) :
    2 * 10 ^ 11 * ((addCtx x b).1 * 10 ^ (addCtx x b).2) ≤
      (2 * 10 ^ 11 + 1) * (x.1 * 10 ^ x.2 + b) :=
  ctxRound12_le _

lemma addCtx_exact {x : ℕ × ℕ} {b : ℕ} (h : x.1 * 10 ^ x.2 + b < 10 ^ 12) :
    addCtx x b = (x.1 * 10 ^ x.2 + b, 0) :=
  ctxRound12_exact h

lemma quantT6_subCtx {f : ℕ} {x : ℕ × ℕ} {T : ℤ} (h : quantT6 (subCtx f x) = some T) :
    T = (f : ℤ) - (x.1 : ℤ) * 10 ^ x.2 ∧ ((f : ℤ) - (x.1 : ℤ) * 10 ^ x.2).natAbs < 10 ^ 12 := by
  unfold quantT6 subCtx ctxRound12Z at h
  set D : ℤ := (f : ℤ) - (x.1 : ℤ) * 10 ^ x.2 with hD
  obtain ⟨hT, hcap⟩ := quantCapZ_some h
  by_cases habs : D.natAbs < 10 ^ 12
  · rw [excess_eq_zero habs] at hT
    simp only [pow_zero, roundHE_one, mul_one] at hT
    rw [Int.sign_mul_natAbs] at hT
    exact ⟨hT, habs⟩
  · exfalso
    set t := excess D.natAbs with ht
    have htpos : 1 ≤ t := by
      by_contra hcon
      have ht0 : t = 0 := by omega
      have h12 := excess_lt D.natAbs
      rw [← ht, ht0] at h12
      exact habs (lt_of_lt_of_le h12 (by norm_num))
    have hge : 10 ^ (11 + t) ≤ D.natAbs := by
      rcases excess_ge D.natAbs with h0 | hge0
      · rw [← ht] at h0
        omega
      · rwa [← ht] at hge0
    have hRge : 10 ^ 11 ≤ roundHE D.natAbs (10 ^ t) := by
      have h1 : D.natAbs / 10 ^ t ≤ roundHE D.natAbs (10 ^ t) := roundHE_ge _ _
      have h2 : (10:ℕ) ^ 11 ≤ D.natAbs / 10 ^ t := by
        have hd : (10:ℕ) ^ (11 + t) / 10 ^ t ≤ D.natAbs / 10 ^ t := Nat.div_le_div_right hge
        have hq : (10:ℕ) ^ (11 + t) / 10 ^ t = 10 ^ 11 := by
          rw [pow_add]
          exact Nat.mul_div_cancel _ (by positivity)
        omega
      omega
    have hDne : D ≠ 0 := by
      intro h0
      rw [h0] at habs
      exact habs (by norm_num)
    have hqabs : (D.sign * (roundHE D.natAbs (10 ^ t) : ℤ) * 10 ^ t).natAbs =
        roundHE D.natAbs (10 ^ t) * 10 ^ t := by
      rw [Int.natAbs_mul, Int.natAbs_mul, Int.natAbs_sign_of_nonzero hDne]
      simp [Int.natAbs_pow]
    rw [hqabs] at hcap
    have hbig : (10:ℕ) ^ 12 ≤ roundHE D.natAbs (10 ^ t) * 10 ^ t := by
      calc (10:ℕ) ^ 12 = 10 ^ 11 * 10 ^ 1 := by norm_num
        _ ≤ roundHE D.natAbs (10 ^ t) * 10 ^ t :=
            Nat.mul_le_mul hRge (Nat.pow_le_pow_right (by norm_num) htpos)
    omega

/-- Core conservation argument: whenever the final treasury quantize
succeeds, the intermediate context additions and the subtraction were in
fact exact, so the returned splits sum to the fee bit-for-bit, and the
treasury residual is non-negative. -/
lemma conserve_core {f cb l1 l2 l3 : ℕ} {T : ℤ}
    (hcb : 200 * 10 ^ 11 * cb ≤ (2 * 10 ^ 11 + 1) * (f * 10))
    (h1 : 200 * 10 ^ 11 * l1 ≤ (2 * 10 ^ 11 + 1) * (f * 30))
    (h2 : 200 * 10 ^ 11 * l2 ≤ (2 * 10 ^ 11 + 1) * (f * 3))
    (h3 : 200 * 10 ^ 11 * l3 ≤ (2 * 10 ^ 11 + 1) * (f * 2))
    (hT : quantT6 (subCtx f (addCtx (addCtx (addCtx (cb, 0) l1) l2) l3)) = some T) :
    (cb : ℤ) + l1 + l2 + l3 + T = f ∧ 0 ≤ T := by
  set x1 : ℕ × ℕ := addCtx (cb, 0) l1 with hx1
  set x2 : ℕ × ℕ := addCtx x1 l2 with hx2
  set x3 : ℕ × ℕ := addCtx x2 l3 with hx3
  obtain ⟨hTeq, hTlt⟩ := quantT6_subCtx hT
  have b1 : 2 * 10 ^ 11 * (x1.1 * 10 ^ x1.2) ≤ (2 * 10 ^ 11 + 1) * (cb + l1) := by
    have hb := addCtx_le (cb, 0) l1
    rw [← hx1] at hb
    simpa using hb
  have b2 : 2 * 10 ^ 11 * (x2.1 * 10 ^ x2.2) ≤ (2 * 10 ^ 11 + 1) * (x1.1 * 10 ^ x1.2 + l2) := by
    have hb := addCtx_le x1 l2
    rw [← hx2] at hb
    exact hb
  have b3 : 2 * 10 ^ 11 * (x3.1 * 10 ^ x3.2) ≤ (2 * 10 ^ 11 + 1) * (x2.1 * 10 ^ x2.2 + l3) := by
    have hb := addCtx_le x2 l3
    rw [← hx3] at hb
    exact hb
  set V1 : ℕ := x1.1 * 10 ^ x1.2 with hV1
  set V2 : ℕ := x2.1 * 10 ^ x2.2 with hV2
  set V3 : ℕ := x3.1 * 10 ^ x3.2 with hV3
  have hcast : ((x3.1 : ℤ)) * 10 ^ x3.2 = (V3 : ℤ) := by
    rw [hV3]
    push_cast
    ring
  rw [hcast] at hTeq hTlt
  have hflt : f < 10 ^ 12 + V3 := by omega
  have hnum : cb + l1 < 10 ^ 12 ∧ cb + l1 + l2 < 10 ^ 12 ∧ cb + l1 + l2 + l3 < 10 ^ 12 ∧
      cb + l1 + l2 + l3 ≤ f := by omega
  have e1 : addCtx (cb, 0) l1 = (cb + l1, 0) := by
    have h := @addCtx_exact (cb, 0) l1 (by simpa using hnum.1)
    simpa using h
  have hx1e : x1 = (cb + l1, 0) := by rw [hx1, e1]
  have hV1e : V1 = cb + l1 := by
    rw [hV1, hx1e]
    simp
  have e2 : addCtx x1 l2 = (cb + l1 + l2, 0) := by
    rw [hx1e]
    have h := @addCtx_exact (cb + l1, 0) l2 (by simpa using hnum.2.1)
    simpa using h
  have hx2e : x2 = (cb + l1 + l2, 0) := by rw [hx2, e2]
  have e3 : addCtx x2 l3 = (cb + l1 + l2 + l3, 0) := by
    rw [hx2e]
    have h := @addCtx_exact (cb + l1 + l2, 0) l3 (by simpa using hnum.2.2.1)
    simpa using h
  have hx3e : x3 = (cb + l1 + l2 + l3, 0) := by rw [hx3, e3]
  have hV3e : V3 = cb + l1 + l2 + l3 := by
    rw [hV3, hx3e]
    simp
  rw [hV3e] at hTeq
  constructor
  · rw [hTeq]
    push_cast
    ring
  · rw [hTeq]
    have hle := hnum.2.2.2
    have : ((cb + l1 + l2 + l3 : ℕ) : ℤ) ≤ (f : ℤ) := by exact_mod_cast hle
    omega

/-- Bound for a conditional commission component: when present it comes
from a quantize of the context product, when absent it is zero. -/
lemma comp_bound {α : Type} [PyTruthy α] {lineage : List (Option α)} {i : ℕ} {f r l : ℕ}
    (h : (if linPresent lineage i then quant6 (mul12 f r) else some 0) = some l) :
    200 * 10 ^ 11 * l ≤ (2 * 10 ^ 11 + 1) * (f * r) ∧ (linPresent lineage i = false → l = 0) := by
  by_cases hp : linPresent lineage i = true
  · rw [if_pos hp] at h
    refine ⟨(quant6_some_bound h).2, fun hf => ?_⟩
    rw [hp] at hf
    exact absurd hf (by simp)
  · rw [if_neg hp] at h
    have hl : l = 0 := (Option.some.inj h).symm
    refine ⟨?_, fun _ => hl⟩
    rw [hl]
    simp

/-- Soundness of the fee splitter: whenever it returns splits, they sum
to the fee exactly at 6 fractional digits, the treasury residual is
non-negative, and a commission level whose ancestor slot is not a truthy
id is zero. -/
lemma feeEngine_sound {α : Type} [PyTruthy α] (f : ℕ) (lineage : List (Option α)) (s : Splits)
    (h : feeEngine f lineage = some s) :
    (s.cashback : ℤ) + s.l1 + s.l2 + s.l3 + s.treasury = f ∧ 0 ≤ s.treasury ∧
      (linPresent lineage 0 = false → s.l1 = 0) ∧
      (linPresent lineage 1 = false → s.l2 = 0) ∧
      (linPresent lineage 2 = false → s.l3 = 0) := by
  unfold feeEngine at h
  cases hcb : quant6 (mul12 f 10) with
  | none => rw [hcb] at h; exact Option.noConfusion h
  | some cb =>
  simp only [hcb] at h
  cases hl1 : (if linPresent lineage 0 then quant6 (mul12 f 30) else some 0) with
  | none => rw [hl1] at h; exact Option.noConfusion h
  | some l1 =>
  simp only [hl1] at h
  cases hl2 : (if linPresent lineage 1 then quant6 (mul12 f 3) else some 0) with
  | none => rw [hl2] at h; exact Option.noConfusion h
  | some l2 =>
  simp only [hl2] at h
  cases hl3 : (if linPresent lineage 2 then quant6 (mul12 f 2) else some 0) with
  | none => rw [hl3] at h; exact Option.noConfusion h
  | some l3 =>
  simp only [hl3] at h
  cases htr : quantT6 (subCtx f (addCtx (addCtx (addCtx (cb, 0) l1) l2) l3)) with
  | none => rw [htr] at h; exact Option.noConfusion h
  | some tr =>
  simp only [htr, Option.some.injEq] at h
  subst h
  have hcbB := (quant6_some_bound hcb).2
  have h1 := comp_bound hl1
  have h2 := comp_bound hl2
  have h3 := comp_bound hl3
  have hc := conserve_core hcbB h1.1 h2.1 h3.1 htr
  exact ⟨hc.1, hc.2, h1.2, h2.2, h3.2⟩

/-- C1: For every non-negative fee amount quantized at 6 fractional digits
and every lineage, the splits returned by the fee engine satisfy
cashback + l1 + l2 + l3 + treasury = fee_amount exactly, bit-for-bit at 6
decimal places (amounts are micro-unit coefficients). -/
theorem feeEngine_conserves {α : Type} [PyTruthy α] (f : ℕ) (lineage : List (Option α))
    (s : Splits) (h : feeEngine f lineage = some s) :
    (s.cashback : ℤ) + s.l1 + s.l2 + s.l3 + s.treasury = f :=
  (feeEngine_sound f lineage s h).1

/-- Witness for C1: the documented example, fee 200.000000 with a full
lineage, splits 20 / 60 / 6 / 4 / 110 and conservation holds. -/
theorem feeEngine_conserves_witness :
    feeEngine 200000000 ([some "C", some "B", some "A"] : List (Option String)) =
      some ⟨20000000, 60000000, 6000000, 4000000, 110000000⟩ ∧
    (20000000 : ℤ) + 60000000 + 6000000 + 4000000 + 110000000 = 200000000 :=
  ⟨by rfl,
   feeEngine_conserves 200000000 ([some "C", some "B", some "A"] : List (Option String))
     ⟨20000000, 60000000, 6000000, 4000000, 110000000⟩ (by rfl)⟩

/-- C2 (failing input): at fee 333333.333342 with ancestor 1 present, the
source's 12-significant-digit decimal context rounds the exact product
fee * 0.30 = 100000.0000026 half-even to 100000.000003 before the
ROUND_DOWN quantize ever runs, so the returned l1 is 100000.000003 while
the floor of fee * 0.30 at 6 fractional digits is 100000.000002. -/
theorem feeEngine_l1_not_floor :
    feeEngine 333333333342 ([some "B", none, none] : List (Option String)) =
      some ⟨33333333334, 100000000003, 0, 0, 200000000005⟩ ∧
    333333333342 * 30 / 100 = 100000000002 ∧
    (100000000003 : ℕ) ≠ 333333333342 * 30 / 100 :=
  ⟨by rfl, by norm_num, by norm_num⟩

lemma refGet_cons (c p x : String) (r : Ref) :
    refGet ((c, p) :: r) x = if c = x then some p else refGet r x := by
  unfold refGet
  cases hbeq : (c == x) with
  | true =>
    have : c = x := by simpa using hbeq
    simp [List.find?, hbeq, this]
  | false =>
    have : ¬ c = x := by simpa using hbeq
    simp [List.find?, hbeq, this]

lemma iterGet_compose (r : Ref) (a b : ℕ) (x : String) :
    iterGet r (a + b) x =
      match iterGet r a x with
      | none => none
      | some y => iterGet r b y := by
  induction a generalizing x with
  | zero =>
    rw [Nat.zero_add]
    simp [iterGet]
  | succ a ih =>
    rw [Nat.succ_add]
    cases hg : refGet r x with
    | none => simp [iterGet, hg]
    | some p => simp [iterGet, hg, ih]

lemma walk_no_reach {r : Ref} {child : String} :
    ∀ fuel cur, walkFuel r fuel child cur = some false →
      ∀ n, iterGet r n cur ≠ some child := by
  intro fuel
  induction fuel with
  | zero =>
    intro cur h
    exact absurd h (by simp [walkFuel])
  | succ fuel ih =>
    intro cur h n
    unfold walkFuel at h
    by_cases hc : cur = child
    · rw [if_pos hc] at h
      exact absurd h (by simp)
    · rw [if_neg hc] at h
      cases hg : refGet r cur with
      | none =>
        intro hit
        cases n with
        | zero => exact hc (Option.some.inj hit)
        | succ n => simp [iterGet, hg] at hit
      | some p =>
        rw [hg] at h
        intro hit
        cases n with
        | zero => exact hc (Option.some.inj hit)
        | succ n =>
          have hstep : iterGet r n p = some child := by simpa [iterGet, hg] using hit
          exact ih p h n hstep

lemma iterGet_agree {r : Ref} {c p : String} :
    ∀ m x, (∀ i, i < m → iterGet ((c, p) :: r) i x ≠ some c) →
      iterGet ((c, p) :: r) m x = iterGet r m x := by
  intro m
  induction m with
  | zero => intro x _; rfl
  | succ m ih =>
    intro x havoid
    have hx : c ≠ x := by
      intro he
      exact havoid 0 (by omega) (by simp [iterGet, he])
    have hg : refGet ((c, p) :: r) x = refGet r x := by
      rw [refGet_cons, if_neg hx]
    cases hgx : refGet r x with
    | none => simp [iterGet, hg, hgx]
    | some y =>
      have hrec : iterGet ((c, p) :: r) m y = iterGet r m y := by
        apply ih
        intro i hi hit
        exact havoid (i + 1) (by omega) (by simpa [iterGet, hg, hgx] using hit)
      simp [iterGet, hg, hgx, hrec]

lemma forest_insert {c p : String} {r : Ref} (h : Forest r)
    (hw : walkFuel r (r.length + 1) c p = some false) :
    Forest ((c, p) :: r) := by
  intro x n hcyc
  by_cases hpass : ∀ i, i < n + 1 → iterGet ((c, p) :: r) i x ≠ some c
  · rw [iterGet_agree (n + 1) x hpass] at hcyc
    exact h x n hcyc
  · push_neg at hpass
    obtain ⟨i, hi, hic⟩ := hpass
    have hrot : iterGet ((c, p) :: r) (n + 1) c = some c := by
      have h1 : iterGet ((c, p) :: r) (i + (n + 1)) x = iterGet ((c, p) :: r) (n + 1) c := by
        rw [iterGet_compose, hic]
      have h2 : iterGet ((c, p) :: r) (n + 1 + i) x = some c := by
        rw [iterGet_compose, hcyc]
        exact hic
      rw [Nat.add_comm (n + 1) i] at h2
      rw [← h1, h2]
    have hc1 : refGet ((c, p) :: r) c = some p := by
      rw [refGet_cons, if_pos rfl]
    have hn : iterGet ((c, p) :: r) n p = some c := by
      simpa [iterGet, hc1] using hrot
    have hex : ∃ m, iterGet ((c, p) :: r) m p = some c := ⟨n, hn⟩
    have hmP : iterGet ((c, p) :: r) (Nat.find hex) p = some c := Nat.find_spec hex
    have hagree : iterGet ((c, p) :: r) (Nat.find hex) p = iterGet r (Nat.find hex) p := by
      apply iterGet_agree
      intro i hi
      exact Nat.find_min hex hi
    rw [hagree] at hmP
    exact walk_no_reach (r.length + 1) p hw (Nat.find hex) hmP

lemma register_step_forest (c p : String) (r : Ref) (h : Forest r) :
    Forest (registerReferral c p r).1 := by
  unfold registerReferral
  by_cases hch : (refGet r c).isSome
  · rw [if_pos hch]
    exact h
  · rw [if_neg hch]
    cases hw : walkFuel r (r.length + 1) c p with
    | none => exact h
    | some b =>
      cases b with
      | true => exact h
      | false => exact forest_insert h hw

lemma applyCalls_forest (calls : List (String × String)) :
    ∀ r : Ref, Forest r → Forest (applyCalls calls r) := by
  induction calls with
  | nil => intro r h; exact h
  | cons hd tl ih =>
    intro r h
    exact ih _ (register_step_forest hd.1 hd.2 r h)

lemma forest_nil : Forest ([] : Ref) := by
  intro x n h
  simp [iterGet, refGet] at h

lemma forest_chain_ends {r : Ref} (h : Forest r) (x : String) :
    ∃ d, d ≤ r.length + 1 ∧ iterGet r d x = none := by
  by_contra hcon
  push_neg at hcon
  have hsome : ∀ i, i ≤ r.length →
      ∃ y, iterGet r i x = some y ∧ refGet r y ≠ none := by
    intro i hi
    cases hgi : iterGet r i x with
    | none => exact absurd hgi (hcon i (by omega))
    | some y =>
      refine ⟨y, rfl, ?_⟩
      intro hnone
      have hnext : iterGet r (i + 1) x = none := by
        rw [iterGet_compose, hgi]
        simp [iterGet, hnone]
      exact hcon (i + 1) (by omega) hnext
  set g : ℕ → String := fun i => (iterGet r i x).getD "" with hg
  have hgspec : ∀ i, i ≤ r.length → iterGet r i x = some (g i) ∧ refGet r (g i) ≠ none := by
    intro i hi
    obtain ⟨y, hy, hy2⟩ := hsome i hi
    have hgi : g i = y := by
      rw [hg]
      simp [hy]
    rw [hgi]
    exact ⟨hy, hy2⟩
  have hmem : ∀ i ∈ Finset.range (r.length + 1), g i ∈ (r.map Prod.fst).toFinset := by
    intro i hi
    rw [Finset.mem_range] at hi
    obtain ⟨_, hy2⟩ := hgspec i (by omega)
    cases hf : r.find? (fun p => p.1 == g i) with
    | none =>
      exfalso
      apply hy2
      unfold refGet
      rw [hf]
      rfl
    | some q =>
      have hqm : q ∈ r := List.mem_of_find?_eq_some hf
      have hq1 := List.find?_some hf
      have : q.1 = g i := by simpa using hq1
      rw [List.mem_toFinset]
      rw [← this]
      exact List.mem_map_of_mem Prod.fst hqm
  have hinj : Set.InjOn g (Finset.range (r.length + 1)) := by
    intro i hi j hj hij
    rw [Finset.coe_range, Set.mem_Iio] at hi hj
    by_contra hne
    rcases Nat.lt_or_ge i j with hlt | hge
    · obtain ⟨hyi, _⟩ := hgspec i (by omega)
      obtain ⟨hyj, _⟩ := hgspec j (by omega)
      have hcomp : iterGet r (i + (j - i)) x = iterGet r (j - i) (g i) := by
        rw [iterGet_compose, hyi]
      rw [show i + (j - i) = j by omega] at hcomp
      rw [hyj, hij] at hcomp
      have hji : j - i = (j - i - 1) + 1 := by omega
      rw [hji] at hcomp
      exact h (g j) (j - i - 1) hcomp.symm
    · have hlt2 : j < i := by omega
      obtain ⟨hyi, _⟩ := hgspec i (by omega)
      obtain ⟨hyj, _⟩ := hgspec j (by omega)
      have hcomp : iterGet r (j + (i - j)) x = iterGet r (i - j) (g j) := by
        rw [iterGet_compose, hyj]
      rw [show j + (i - j) = i by omega] at hcomp
      rw [hyi, hij] at hcomp
      have hij2 : i - j = (i - j - 1) + 1 := by omega
      rw [hij2] at hcomp
      exact h (g j) (i - j - 1) hcomp.symm
  have hcard := Finset.card_le_card_of_injOn g hmem hinj
  rw [Finset.card_range] at hcard
  have hlen : (r.map Prod.fst).toFinset.card ≤ r.length := by
    calc (r.map Prod.fst).toFinset.card ≤ (r.map Prod.fst).length := List.toFinset_card_le _
      _ = r.length := List.length_map _ _
  omega

lemma walk_some_of_ends {r : Ref} {child : String} :
    ∀ d cur fuel, iterGet r d cur = none → d ≤ fuel → (walkFuel r fuel child cur).isSome := by
  intro d
  induction d with
  | zero =>
    intro cur fuel hend
    exact absurd hend (by simp [iterGet])
  | succ d ih =>
    intro cur fuel hend hle
    obtain ⟨fuel2, rfl⟩ : ∃ fuel2, fuel = fuel2 + 1 := ⟨fuel - 1, by omega⟩
    unfold walkFuel
    by_cases hc : cur = child
    · rw [if_pos hc]
      simp
    · rw [if_neg hc]
      cases hgc : refGet r cur with
      | none => simp
      | some p =>
        have hd : iterGet r d p = none := by simpa [iterGet, hgc] using hend
        exact ih p fuel2 hd (by omega)

/-- C7: starting from a forest, after any sequence of register_referral
calls (each succeeding or failing) the parent-of relation is still a
forest, and a failed call leaves the relation unchanged. -/
theorem registerReferral_preserves_forest (calls : List (String × String)) (r : Ref)
    (h : Forest r) :
    Forest (applyCalls calls r) ∧
      ∀ c pa r2, (registerReferral c pa r2).2 = false → (registerReferral c pa r2).1 = r2 := by
  refine ⟨applyCalls_forest calls r h, ?_⟩
  intro c pa r2 hf
  unfold registerReferral at hf ⊢
  by_cases hch : (refGet r2 c).isSome
  · rw [if_pos hch]
  · rw [if_neg hch] at hf ⊢
    cases hw : walkFuel r2 (r2.length + 1) c pa with
    | none => simp [hw]
    | some b =>
      cases b with
      | false =>
        rw [hw] at hf
        simp at hf
      | true => simp [hw]

/-- Witness for C7: the empty relation is a forest, and it still is after
registering B under A and then C under B. -/
theorem registerReferral_preserves_forest_witness :
    Forest ([] : Ref) ∧
      (Forest (applyCalls [("B", "A"), ("C", "B")] []) ∧
        ∀ c pa r2, (registerReferral c pa r2).2 = false → (registerReferral c pa r2).1 = r2) :=
  ⟨forest_nil, registerReferral_preserves_forest [("B", "A"), ("C", "B")] [] forest_nil⟩

/-- C8: on a forest, the ancestor walk of register_referral terminates:
the chain from the proposed parent reaches a root within d steps for some
d bounded by the number of referral edges plus one, the walk returns a
definite answer for every fuel of at least d, and in particular the fuel
used by registerReferral suffices, making it total under the forest
precondition. -/
theorem registerReferral_walk_terminates (r : Ref) (child parent : String) (h : Forest r) :
    ∃ d, d ≤ r.length + 1 ∧ iterGet r d parent = none ∧
      (∀ fuel, d ≤ fuel → (walkFuel r fuel child parent).isSome) ∧
      (walkFuel r (r.length + 1) child parent).isSome := by
  obtain ⟨d, hd, hnone⟩ := forest_chain_ends h parent
  exact ⟨d, hd, hnone, fun fuel hf => walk_some_of_ends d parent fuel hnone hf,
    walk_some_of_ends d parent (r.length + 1) hnone hd⟩

/-- Witness for C8: the one-edge forest B -> A; the walk from A
terminates within the bound. -/
theorem registerReferral_walk_terminates_witness :
    Forest ([] : Ref) ∧
      ∃ d, d ≤ ([] : Ref).length + 1 ∧ iterGet [] d "A" = none ∧
        (∀ fuel, d ≤ fuel → (walkFuel [] fuel "B" "A").isSome) ∧
        (walkFuel [] (([] : Ref).length + 1) "B" "A").isSome :=
  ⟨forest_nil, registerReferral_walk_terminates [] "B" "A" forest_nil⟩

/-! ### Payout list facts -/
lemma ite_pay_sum_nat {α : Type} (u : α) (k : String) (x : ℕ) :
    ((((if 0 < x then [(u, k, (x : ℤ))] else []) : List (α × String × ℤ))).map
      (fun p => p.2.2)).sum = (x : ℤ) := by
  by_cases hx : 0 < x
  · rw [if_pos hx]
    simp
  · rw [if_neg hx]
    simp only [List.map_nil, List.sum_nil]
    omega

lemma ite_pay_sum_int {α : Type} (u : α) (k : String) (x : ℤ) (hx : 0 ≤ x) :
    ((((if 0 < x then [(u, k, x)] else []) : List (α × String × ℤ))).map
      (fun p => p.2.2)).sum = x := by
  by_cases h : 0 < x
  · rw [if_pos h]
    simp
  · rw [if_neg h]
    simp only [List.map_nil, List.sum_nil]
    omega

lemma ite_pay_pos_nat {α : Type} (u : α) (k : String) (x : ℕ) :
    ∀ p ∈ (((if 0 < x then [(u, k, (x : ℤ))] else []) : List (α × String × ℤ))), 0 < p.2.2 := by
  by_cases hx : 0 < x
  · rw [if_pos hx]
    intro p hp
    rw [List.mem_singleton] at hp
    subst hp
    simpa using hx
  · rw [if_neg hx]
    intro p hp
    simp at hp

lemma ite_pay_pos_int {α : Type} (u : α) (k : String) (x : ℤ) :
    ∀ p ∈ (((if 0 < x then [(u, k, x)] else []) : List (α × String × ℤ))), 0 < p.2.2 := by
  by_cases hx : 0 < x
  · rw [if_pos hx]
    intro p hp
    rw [List.mem_singleton] at hp
    subst hp
    simpa using hx
  · rw [if_neg hx]
    intro p hp
    simp at hp

lemma buildPayouts_sum {α : Type} (trader : α) (o1 o2 o3 : Option α) (s : Splits) (tid : α)
    (hT : 0 ≤ s.treasury)
    (h1 : o1 = none → s.l1 = 0) (h2 : o2 = none → s.l2 = 0) (h3 : o3 = none → s.l3 = 0) :
    ((buildPayouts trader o1 o2 o3 s tid).map (fun p => p.2.2)).sum =
      (s.cashback : ℤ) + s.l1 + s.l2 + s.l3 + s.treasury := by
  rcases o1 with _ | a1 <;> rcases o2 with _ | a2 <;> rcases o3 with _ | a3
  all_goals try have hz1 : s.l1 = 0 := h1 rfl
  all_goals try have hz2 : s.l2 = 0 := h2 rfl
  all_goals try have hz3 : s.l3 = 0 := h3 rfl
  all_goals simp only [buildPayouts, List.map_append, List.sum_append, List.map_nil,
    List.sum_nil, ite_pay_sum_nat, ite_pay_sum_int tid "treasury" s.treasury hT]
  all_goals omega

lemma buildPayouts_pos {α : Type} (trader : α) (o1 o2 o3 : Option α) (s : Splits) (tid : α) :
    ∀ p ∈ buildPayouts trader o1 o2 o3 s tid, 0 < p.2.2 := by
  unfold buildPayouts
  rw [List.forall_mem_append, List.forall_mem_append, List.forall_mem_append,
    List.forall_mem_append]
  refine ⟨⟨⟨⟨?_, ?_⟩, ?_⟩, ?_⟩, ?_⟩
  · exact ite_pay_pos_nat trader "cashback" s.cashback
  · cases o1 with
    | none => intro q hq; simp at hq
    | some a => exact ite_pay_pos_nat a "commission_l1" s.l1
  · cases o2 with
    | none => intro q hq; simp at hq
    | some a => exact ite_pay_pos_nat a "commission_l2" s.l2
  · cases o3 with
    | none => intro q hq; simp at hq
    | some a => exact ite_pay_pos_nat a "commission_l3" s.l3
  · exact ite_pay_pos_int tid "treasury" s.treasury

lemma getLineageGo_length (r : Ref) : ∀ n cur, (getLineageGo r n cur).length = n := by
  intro n
  induction n with
  | zero => intro cur; rfl
  | succ n ih =>
    intro cur
    cases hg : refGet r cur with
    | none => simp [getLineageGo, hg]
    | some p =>
      by_cases hp : p = ""
      · simp [getLineageGo, hg, hp]
      · simp [getLineageGo, hg, hp, ih]

lemma getLineage_shape (r : Ref) (x : String) : ∃ o1 o2 o3, getLineage r x = [o1, o2, o3] :=
  List.length_eq_three.mp (getLineageGo_length r 3 x)

lemma getLineageDbGo_length (users : List URow) :
    ∀ n cur lin, getLineageDbGo users n cur = some lin → lin.length = n := by
  intro n
  induction n with
  | zero =>
    intro cur lin h
    simp only [getLineageDbGo, Option.some.injEq] at h
    rw [← h]
    rfl
  | succ n ih =>
    intro cur lin h
    simp only [getLineageDbGo] at h
    cases hu : userFind users cur with
    | none =>
      simp only [hu] at h
      exact Option.noConfusion h
    | some u =>
      simp only [hu] at h
      cases hr : u.referrerId with
      | none =>
        simp only [hr, Option.some.injEq] at h
        rw [← h]
        simp
      | some p =>
        simp only [hr] at h
        rw [Option.map_eq_some'] at h
        obtain ⟨rest, hrest, hlin⟩ := h
        rw [← hlin]
        simp [ih p rest hrest]

lemma getLineageDb_shape {users : List URow} {trader : ℕ} {lin : List (Option ℕ)}
    (h : getLineageDb users trader = some lin) : ∃ o1 o2 o3, lin = [o1, o2, o3] :=
  List.length_eq_three.mp (getLineageDbGo_length users 3 trader lin h)

lemma foldl_applyPayout (e : TradeEvent String) :
    ∀ (ps : List (String × String × ℤ)) (st : MemState),
      (ps.foldl (applyPayout e) st).processed = st.processed ∧
      (ps.foldl (applyPayout e) st).journal = st.journal ++ ps.map (fun p =>
        (⟨e.tradeId, e.chain, p.1, p.2.1, p.2.2, e.feeToken, e.executedAt⟩ : JEntry)) ∧
      (ps.foldl (applyPayout e) st).ledger = ps.foldl (fun led p =>
        ledgerSet led (p.1, p.2.1) (ledgerGet led (p.1, p.2.1) + p.2.2)) st.ledger := by
  intro ps
  induction ps with
  | nil => intro st; exact ⟨rfl, by simp, rfl⟩
  | cons hd tl ih =>
    intro st
    obtain ⟨ih1, ih2, ih3⟩ := ih (applyPayout e st hd)
    refine ⟨ih1, ?_, ?_⟩
    · rw [List.foldl_cons, ih2]
      simp [applyPayout]
    · rw [List.foldl_cons, ih3]
      rfl

lemma foldl_applyPayoutDb (e : TradeEvent ℕ) (pk : ℕ) :
    ∀ (ps : List (ℕ × String × ℤ)) (st : DBState),
      (ps.foldl (applyPayoutDb e pk) st).users = st.users ∧
      (ps.foldl (applyPayoutDb e pk) st).trades = st.trades ∧
      (ps.foldl (applyPayoutDb e pk) st).entries = st.entries ++ ps.map (fun p =>
        (⟨pk, e.chain, p.1, p.2.1, e.feeToken, p.2.2, e.executedAt⟩ : DbEntry)) ∧
      (ps.foldl (applyPayoutDb e pk) st).ledger = ps.foldl (fun led p =>
        upsertLedgerDelta led p.1 p.2.1 e.feeToken p.2.2) st.ledger := by
  intro ps
  induction ps with
  | nil => intro st; exact ⟨rfl, rfl, by simp, rfl⟩
  | cons hd tl ih =>
    intro st
    obtain ⟨ih1, ih2, ih3, ih4⟩ := ih (applyPayoutDb e pk st hd)
    refine ⟨ih1, ih2, ?_, ?_⟩
    · rw [List.foldl_cons, ih3]
      simp [applyPayoutDb]
    · rw [List.foldl_cons, ih4]
      rfl

/-- C3: for every trade event accepted as applied, the journal entries
appended for that trade sum exactly to the event's fee amount at 6
decimal places, every appended entry carries a strictly positive amount,
and the ledger receives exactly those (strictly positive) increments —
a payout is included only if its amount is strictly positive. Both the
in-memory handler and the DB transaction body satisfy this. -/
theorem handleTrade_applied_conserves :
    (∀ (ref : Ref) (e : TradeEvent String) (st st2 : MemState) (res : TradeResult String),
      handleTrade ref e st = (st2, some res) → res.status = "applied" →
      ∃ L : List (String × String × ℤ),
        st2.journal = st.journal ++ L.map (fun p =>
          (⟨e.tradeId, e.chain, p.1, p.2.1, p.2.2, e.feeToken, e.executedAt⟩ : JEntry)) ∧
        (L.map (fun p => p.2.2)).sum = (e.feeAmount : ℤ) ∧
        (∀ p ∈ L, 0 < p.2.2) ∧
        st2.ledger = L.foldl (fun led p =>
          ledgerSet led (p.1, p.2.1) (ledgerGet led (p.1, p.2.1) + p.2.2)) st.ledger) ∧
    (∀ (st : DBState) (e : TradeEvent ℕ) (st2 : DBState) (res : TradeResult ℕ),
      handleTradeDbInTx st e = some (res, st2) → res.status = "applied" →
      ∃ (L : List (ℕ × String × ℤ)) (pk : ℕ),
        st2.entries = st.entries ++ L.map (fun p =>
          (⟨pk, e.chain, p.1, p.2.1, e.feeToken, p.2.2, e.executedAt⟩ : DbEntry)) ∧
        (L.map (fun p => p.2.2)).sum = (e.feeAmount : ℤ) ∧
        (∀ p ∈ L, 0 < p.2.2) ∧
        st2.ledger = L.foldl (fun led p =>
          upsertLedgerDelta led p.1 p.2.1 e.feeToken p.2.2) st.ledger) := by
  constructor
  · intro ref e st st2 res h ha
    unfold handleTrade at h
    by_cases hdup : (e.tradeId, e.chain) ∈ st.processed
    · rw [if_pos hdup] at h
      simp only [Prod.mk.injEq, Option.some.injEq] at h
      rw [← h.2] at ha
      exact absurd ha (by simp)
    · rw [if_neg hdup] at h
      obtain ⟨o1, o2, o3, hlin⟩ := getLineage_shape ref e.trader
      cases hfe : feeEngine e.feeAmount (getLineage ref e.trader) with
      | none =>
        rw [hfe] at h
        simp only [Prod.mk.injEq] at h
        exact absurd h.2 (by simp)
      | some s =>
        rw [hfe, hlin] at h
        simp only [Prod.mk.injEq, Option.some.injEq] at h
        obtain ⟨h1, h2⟩ := h
        obtain ⟨hs1, hs2, hs3, hs4, hs5⟩ := feeEngine_sound e.feeAmount
          (getLineage ref e.trader) s hfe
        rw [hlin] at hs3 hs4 hs5
        refine ⟨buildPayouts e.trader o1 o2 o3 s TREASURY_USER_ID, ?_, ?_, ?_, ?_⟩
        · rw [← h1]
          exact (foldl_applyPayout e _ _).2.1
        · rw [buildPayouts_sum e.trader o1 o2 o3 s TREASURY_USER_ID hs2
            (fun ho => hs3 (by rw [ho]; rfl)) (fun ho => hs4 (by rw [ho]; rfl))
            (fun ho => hs5 (by rw [ho]; rfl))]
          exact hs1
        · exact buildPayouts_pos e.trader o1 o2 o3 s TREASURY_USER_ID
        · rw [← h1]
          exact (foldl_applyPayout e _ _).2.2
  · intro st e st2 res h ha
    unfold handleTradeDbInTx at h
    rcases hens : ensureTradeRow st e with ⟨st1, pk, created⟩
    rw [hens] at h
    cases created with
    | false =>
      simp only [Bool.not_false, if_pos, Option.some.injEq, Prod.mk.injEq] at h
      rw [← h.1] at ha
      exact absurd ha (by simp)
    | true =>
      simp only [Bool.not_true, Bool.false_eq_true, if_false] at h
      cases hlin : getLineageDb st1.users e.trader with
      | none =>
        simp only [hlin] at h
        exact Option.noConfusion h
      | some lin =>
        simp only [hlin] at h
        cases hfe : feeEngine e.feeAmount lin with
        | none =>
          simp only [hfe] at h
          exact Option.noConfusion h
        | some s =>
          simp only [hfe] at h
          obtain ⟨o1, o2, o3, hsh⟩ := getLineageDb_shape hlin
          subst hsh
          cases htr : st1.users.find? (fun u => u.isTreasury) with
          | none =>
            simp only [htr] at h
            exact Option.noConfusion h
          | some tu =>
            simp only [htr, Option.some.injEq, Prod.mk.injEq] at h
            obtain ⟨h2, h1⟩ := h
            -- characterize st1 and pk from the created insert
            unfold ensureTradeRow at hens
            cases hfind : st.trades.find?
                (fun t => t.tradeId == e.tradeId && t.chain == e.chain) with
            | some t0 =>
              rw [hfind] at hens
              simp only [Prod.mk.injEq] at hens
              exact absurd hens.2.2 (by decide)
            | none =>
              rw [hfind] at hens
              simp only [Prod.mk.injEq] at hens
              obtain ⟨hst1, hpk, _⟩ := hens
              obtain ⟨hs1, hs2, hs3, hs4, hs5⟩ := feeEngine_sound e.feeAmount
                [o1, o2, o3] s hfe
              refine ⟨buildPayouts e.trader o1 o2 o3 s tu.id, pk, ?_, ?_, ?_, ?_⟩
              · rw [← h1]
                have hfold := (foldl_applyPayoutDb e pk
                  (buildPayouts e.trader o1 o2 o3 s tu.id) st1).2.2.1
                rw [hfold, ← hst1]
              · rw [buildPayouts_sum e.trader o1 o2 o3 s tu.id hs2
                  (fun ho => hs3 (by rw [ho]; rfl)) (fun ho => hs4 (by rw [ho]; rfl))
                  (fun ho => hs5 (by rw [ho]; rfl))]
                exact hs1
              · exact buildPayouts_pos e.trader o1 o2 o3 s tu.id
              · rw [← h1]
                have hfold := (foldl_applyPayoutDb e pk
                  (buildPayouts e.trader o1 o2 o3 s tu.id) st1).2.2.2
                rw [hfold, ← hst1]

/-- Witness for C3: an applied trade with fee 200.000000, no lineage;
the journal receives cashback 20 and treasury 180 which sum to the fee,
both strictly positive (the in-memory and the DB handlers). -/
theorem handleTrade_applied_conserves_witness :
    (handleTrade [] ⟨"T1", "D", "arb", "USDC", 200000000, 0⟩ ⟨[], [], []⟩ =
      (⟨[("T1", "arb")],
        [⟨"T1", "arb", "D", "cashback", 20000000, "USDC", 0⟩,
         ⟨"T1", "arb", "TREASURY", "treasury", 180000000, "USDC", 0⟩],
        [(("D", "cashback"), 20000000), (("TREASURY", "treasury"), 180000000)]⟩,
       some ⟨"applied", "T1", some [none, none, none],
         some ⟨20000000, 0, 0, 0, 180000000⟩⟩) ∧
      ∃ L : List (String × String × ℤ),
        ([⟨"T1", "arb", "D", "cashback", 20000000, "USDC", 0⟩,
          ⟨"T1", "arb", "TREASURY", "treasury", 180000000, "USDC", 0⟩] : List JEntry) =
          ([] : List JEntry) ++ L.map (fun p =>
            (⟨"T1", "arb", p.1, p.2.1, p.2.2, "USDC", 0⟩ : JEntry)) ∧
        (L.map (fun p => p.2.2)).sum = (200000000 : ℤ) ∧
        (∀ p ∈ L, 0 < p.2.2) ∧
        ([(("D", "cashback"), (20000000 : ℤ)), (("TREASURY", "treasury"), 180000000)]) =
          L.foldl (fun led p =>
            ledgerSet led (p.1, p.2.1) (ledgerGet led (p.1, p.2.1) + p.2.2)) []) ∧
    (handleTradeDbInTx ⟨[⟨1, none, true⟩, ⟨2, none, false⟩], [], [], [], []⟩
        ⟨"T1", 2, "arb", "USDC", 200000000, 0⟩ =
      some (⟨"applied", "T1", some [none, none, none], some ⟨20000000, 0, 0, 0, 180000000⟩⟩,
        ⟨[⟨1, none, true⟩, ⟨2, none, false⟩],
         [⟨1, "T1", "arb", 2, "USDC", 200000000, 0⟩],
         [⟨1, "arb", 2, "cashback", "USDC", 20000000, 0⟩,
          ⟨1, "arb", 1, "treasury", "USDC", 180000000, 0⟩],
         [⟨2, "cashback", "USDC", 20000000, 0⟩, ⟨1, "treasury", "USDC", 180000000, 0⟩],
         []⟩) ∧
      ∃ (L : List (ℕ × String × ℤ)) (pk : ℕ),
        ([⟨1, "arb", 2, "cashback", "USDC", 20000000, 0⟩,
          ⟨1, "arb", 1, "treasury", "USDC", 180000000, 0⟩] : List DbEntry) =
          ([] : List DbEntry) ++ L.map (fun p =>
            (⟨pk, "arb", p.1, p.2.1, "USDC", p.2.2, 0⟩ : DbEntry)) ∧
        (L.map (fun p => p.2.2)).sum = (200000000 : ℤ) ∧
        (∀ p ∈ L, 0 < p.2.2) ∧
        ([⟨2, "cashback", "USDC", 20000000, 0⟩,
          ⟨1, "treasury", "USDC", 180000000, 0⟩] : List LRow) =
          L.foldl (fun led p => upsertLedgerDelta led p.1 p.2.1 "USDC" p.2.2) []) := by
  refine ⟨⟨by rfl, ?_⟩, by rfl, ?_⟩
  · exact handleTrade_applied_conserves.1 [] ⟨"T1", "D", "arb", "USDC", 200000000, 0⟩
      ⟨[], [], []⟩ _ _ (by rfl) (by rfl)
  · exact handleTrade_applied_conserves.2 ⟨[⟨1, none, true⟩, ⟨2, none, false⟩], [], [], [], []⟩
      ⟨"T1", 2, "arb", "USDC", 200000000, 0⟩ _ _ (by rfl) (by rfl)

/-- C4: an event whose (trade_id, chain) key has already been seen
returns status duplicate and leaves every table unchanged: the in-memory
handler returns the state untouched when the key is in the processed
set, and the DB transaction body returns the store untouched when a
trade row with that key exists. -/
theorem handleTrade_duplicate_idempotent :
    (∀ (ref : Ref) (e : TradeEvent String) (st : MemState),
      (e.tradeId, e.chain) ∈ st.processed →
      handleTrade ref e st = (st, some ⟨"duplicate", e.tradeId, none, none⟩)) ∧
    (∀ (st : DBState) (e : TradeEvent ℕ),
      (∃ t ∈ st.trades, t.tradeId = e.tradeId ∧ t.chain = e.chain) →
      handleTradeDbInTx st e = some (⟨"duplicate", e.tradeId, none, none⟩, st)) := by
  constructor
  · intro ref e st hmem
    unfold handleTrade
    rw [if_pos hmem]
  · intro st e hex
    obtain ⟨t, htm, ht1, ht2⟩ := hex
    have hfind : (st.trades.find?
        (fun t => t.tradeId == e.tradeId && t.chain == e.chain)).isSome := by
      rw [List.find?_isSome]
      exact ⟨t, htm, by simp [ht1, ht2]⟩
    unfold handleTradeDbInTx ensureTradeRow
    cases hf : st.trades.find? (fun t => t.tradeId == e.tradeId && t.chain == e.chain) with
    | none => rw [hf] at hfind; simp at hfind
    | some t0 => simp [hf]

/-- Witness for C4: a state that has already applied (T1, arbitrum); the
same key is reported duplicate with no state change, in memory and in
the store. -/
theorem handleTrade_duplicate_idempotent_witness :
    (("T1", "arbitrum") ∈ ([("T1", "arbitrum")] : List (String × String)) ∧
      handleTrade [] ⟨"T1", "D", "arbitrum", "USDC", 200000000, 0⟩
          ⟨[("T1", "arbitrum")], [], []⟩ =
        (⟨[("T1", "arbitrum")], [], []⟩, some ⟨"duplicate", "T1", none, none⟩)) ∧
    ((∃ t ∈ ([⟨7, "T1", "arbitrum", 2, "USDC", 200000000, 0⟩] : List TRow),
        t.tradeId = "T1" ∧ t.chain = "arbitrum") ∧
      handleTradeDbInTx ⟨[⟨1, none, true⟩], [⟨7, "T1", "arbitrum", 2, "USDC", 200000000, 0⟩],
          [], [], []⟩ ⟨"T1", 2, "arbitrum", "USDC", 200000000, 0⟩ =
        some (⟨"duplicate", "T1", none, none⟩,
          ⟨[⟨1, none, true⟩], [⟨7, "T1", "arbitrum", 2, "USDC", 200000000, 0⟩], [], [], []⟩)) :=
  ⟨⟨by decide,
    handleTrade_duplicate_idempotent.1 [] ⟨"T1", "D", "arbitrum", "USDC", 200000000, 0⟩
      ⟨[("T1", "arbitrum")], [], []⟩ (by decide)⟩,
   ⟨by decide,
    handleTrade_duplicate_idempotent.2
      ⟨[⟨1, none, true⟩], [⟨7, "T1", "arbitrum", 2, "USDC", 200000000, 0⟩], [], [], []⟩
      ⟨"T1", 2, "arbitrum", "USDC", 200000000, 0⟩ (by decide)⟩⟩

/-- C10: the in-memory handler adds the idempotency key to the processed
set before resolving lineage and computing splits, so when the splits
computation raises, the journal and the ledger are unchanged but the key
stays in the processed set: a later event with the same key is reported
duplicate although the trade was never accrued. -/
theorem handleTrade_exception_poisons (ref : Ref) (e : TradeEvent String) (st st2 : MemState)
    (hkey : (e.tradeId, e.chain) ∉ st.processed)
    (h : handleTrade ref e st = (st2, none)) :
    st2.journal = st.journal ∧ st2.ledger = st.ledger ∧
      (e.tradeId, e.chain) ∈ st2.processed ∧
      ∀ e2 : TradeEvent String, e2.tradeId = e.tradeId → e2.chain = e.chain →
        handleTrade ref e2 st2 = (st2, some ⟨"duplicate", e2.tradeId, none, none⟩) := by
  unfold handleTrade at h
  rw [if_neg hkey] at h
  obtain ⟨o1, o2, o3, hlin⟩ := getLineage_shape ref e.trader
  cases hfe : feeEngine e.feeAmount (getLineage ref e.trader) with
  | some s =>
    rw [hfe, hlin] at h
    simp only [Prod.mk.injEq] at h
    exact absurd h.2 (by simp)
  | none =>
    rw [hfe] at h
    simp only [Prod.mk.injEq] at h
    obtain ⟨h1, _⟩ := h
    subst h1
    refine ⟨rfl, rfl, List.mem_cons_self _ _, ?_⟩
    intro e2 hid hch
    unfold handleTrade
    have hmem : (e2.tradeId, e2.chain) ∈
        (MemState.mk ((e.tradeId, e.chain) :: st.processed) st.journal st.ledger).processed := by
      rw [hid, hch]
      exact List.mem_cons_self _ _
    rw [if_pos hmem]

/-- Witness for C10: a fee of 2,000,000 USDC makes the treasury quantize
raise; the key (T1, arb) is poisoned and a retry reports duplicate. -/
theorem handleTrade_exception_poisons_witness :
    (("T1", "arb") ∉ (([] : List (String × String))) ∧
      handleTrade [] ⟨"T1", "D", "arb", "USDC", 2000000000000, 0⟩ ⟨[], [], []⟩ =
        (⟨[("T1", "arb")], [], []⟩, none)) ∧
    (([] : List JEntry) = [] ∧ ([] : List ((String × String) × ℤ)) = [] ∧
      ("T1", "arb") ∈ [("T1", "arb")] ∧
      ∀ e2 : TradeEvent String, e2.tradeId = "T1" → e2.chain = "arb" →
        handleTrade [] e2 ⟨[("T1", "arb")], [], []⟩ =
          (⟨[("T1", "arb")], [], []⟩, some ⟨"duplicate", e2.tradeId, none, none⟩)) :=
  ⟨⟨by decide, by rfl⟩,
   handleTrade_exception_poisons [] ⟨"T1", "D", "arb", "USDC", 2000000000000, 0⟩
     ⟨[], [], []⟩ ⟨[("T1", "arb")], [], []⟩ (by decide) (by rfl)⟩

lemma claimUpdF_user (u : ℕ) (tok : String) (r : LRow) : (claimUpdF u tok r).user = r.user := by
  unfold claimUpdF; split <;> rfl

lemma claimUpdF_kind (u : ℕ) (tok : String) (r : LRow) : (claimUpdF u tok r).kind = r.kind := by
  unfold claimUpdF; split <;> rfl

lemma claimUpdF_token (u : ℕ) (tok : String) (r : LRow) : (claimUpdF u tok r).token = r.token := by
  unfold claimUpdF; split <;> rfl

lemma claimUpdF_accrued (u : ℕ) (tok : String) (r : LRow) :
    (claimUpdF u tok r).accrued = r.accrued := by
  unfold claimUpdF; split <;> rfl

lemma claimUpdF_id (u : ℕ) (tok : String) (r : LRow)
    (h : r.user ≠ u ∨ r.token ≠ tok ∨ CLAIMABLE_KINDS.contains r.kind = false) :
    claimUpdF u tok r = r := by
  unfold claimUpdF
  rw [if_neg]
  simp only [Bool.and_eq_true, beq_iff_eq, not_and]
  intro hc hk
  rcases h with h | h | h
  · exact absurd hc.1 h
  · exact absurd hc.2 h
  · rw [h] at hk; exact Bool.noConfusion hk

lemma claimUpdF_hit (u : ℕ) (tok : String) (r : LRow)
    (hu : r.user = u) (ht : r.token = tok) (hk : CLAIMABLE_KINDS.contains r.kind = true) :
    claimUpdF u tok r = { r with claimed := r.accrued } := by
  have hc : (r.user == u && r.token == tok && CLAIMABLE_KINDS.contains r.kind) = true := by
    rw [hu, ht, hk]; simp
  unfold claimUpdF
  rw [if_pos hc]

lemma filter_map_of_pres {α : Type} (f : α → α) (p : α → Bool)
    (hf : ∀ r, p (f r) = p r) (l : List α) :
    (l.map f).filter p = (l.filter p).map f := by
  induction l with
  | nil => rfl
  | cons a l ih =>
    simp only [List.map_cons, List.filter_cons, hf]
    cases hp : p a <;> simp [hp, ih]

lemma filter_claimUpdate (led : List LRow) (u : ℕ) (tok : String) :
    (claimUpdate led u tok).filter (fun r => r.user == u && r.token == tok) =
      (led.filter (fun r => r.user == u && r.token == tok)).map (claimUpdF u tok) := by
  unfold claimUpdate
  exact filter_map_of_pres _ _
    (fun r => by simp only [claimUpdF_user, claimUpdF_token]) led

lemma filter_claimUpdate_isEmpty (led : List LRow) (u : ℕ) (tok : String) :
    ((claimUpdate led u tok).filter (fun r => r.user == u && r.token == tok)).isEmpty =
      (led.filter (fun r => r.user == u && r.token == tok)).isEmpty := by
  rw [filter_claimUpdate]
  cases led.filter (fun r => r.user == u && r.token == tok) <;> rfl

lemma previewFold_const (rows : List LRow) (acc : ℤ)
    (h : ∀ r ∈ rows, CLAIMABLE_KINDS.contains r.kind = true → r.claimed = r.accrued) :
    rows.foldl (fun acc r =>
      if CLAIMABLE_KINDS.contains r.kind then acc + max (r.accrued - r.claimed) 0 else acc)
      acc = acc := by
  induction rows generalizing acc with
  | nil => rfl
  | cons a l ih =>
    simp only [List.foldl_cons]
    cases hk : CLAIMABLE_KINDS.contains a.kind with
    | false =>
      rw [if_neg (by simp [hk])]
      exact ih acc (fun r hr hkr => h r (List.mem_cons_of_mem _ hr) hkr)
    | true =>
      rw [if_pos (by simp [hk])]
      rw [h a (List.mem_cons_self _ _) hk]
      simp only [sub_self, max_self, add_zero]
      exact ih acc (fun r hr hkr => h r (List.mem_cons_of_mem _ hr) hkr)

lemma previewTotal_after_claim (led : List LRow) (u : ℕ) (tok : String) :
    previewTotal ((claimUpdate led u tok).filter
      (fun r => r.user == u && r.token == tok)) = 0 := by
  rw [filter_claimUpdate]
  unfold previewTotal
  apply previewFold_const
  intro r hr hk
  rcases List.mem_map.mp hr with ⟨r0, hr0, hmap⟩
  have hp := List.of_mem_filter hr0
  simp only [Bool.and_eq_true, beq_iff_eq] at hp
  have hk0 : CLAIMABLE_KINDS.contains r0.kind = true := by
    rw [← claimUpdF_kind u tok r0, hmap]; exact hk
  rw [← hmap, claimUpdF_hit u tok r0 hp.1 hp.2 hk0]

lemma performClaim_some (st : DBState) (u : ℕ) (tok : String) (total : ℤ) (st2 : DBState)
    (h : performClaim st u tok = some (total, st2)) :
    st2.ledger = claimUpdate st.ledger u tok ∧
    st2.batches = st.batches ++ [⟨u, tok, total, "pending"⟩] ∧
    ¬ (st.ledger.filter (fun r => r.user == u && r.token == tok)).isEmpty = true ∧
    total = claimableTotal (st.ledger.filter (fun r => r.user == u && r.token == tok)) ∧
    0 < total := by
  unfold performClaim at h
  by_cases h1 : (st.ledger.filter (fun r => r.user == u && r.token == tok)).isEmpty = true
  · rw [if_pos h1] at h; exact Option.noConfusion h
  · rw [if_neg h1] at h
    by_cases h2 : claimableTotal (st.ledger.filter (fun r => r.user == u && r.token == tok)) ≤ 0
    · rw [if_pos h2] at h; exact Option.noConfusion h
    · rw [if_neg h2] at h
      simp only [Option.some.injEq, Prod.mk.injEq] at h
      obtain ⟨htot, hst2⟩ := h
      refine ⟨by rw [← hst2], by rw [← hst2, ← htot], h1, htot.symm, ?_⟩
      exact htot ▸ lt_of_not_le h2

lemma get_claimUpdate (led : List LRow) (u : ℕ) (tok : String) (i : ℕ)
    (hi : i < led.length) (hi2 : i < (claimUpdate led u tok).length) :
    (claimUpdate led u tok).get ⟨i, hi2⟩ = claimUpdF u tok (led.get ⟨i, hi⟩) := by
  unfold claimUpdate at hi2 ⊢
  simp

lemma get_congr_list {α : Type} (l l2 : List α) (h : l = l2) (i : ℕ)
    (hi : i < l.length) (hi2 : i < l2.length) :
    l.get ⟨i, hi⟩ = l2.get ⟨i, hi2⟩ := by
  subst h; rfl

/-- C5: immediately after a successful perform_claim for (user, token),
the claim preview for the same pair fails nothing-to-claim: the UPDATE
set claimed = accrued on every claimable row, so the total unclaimed
over the claimable kinds is zero, hence not positive. -/
theorem performClaim_exhausts (st : DBState) (u : ℕ) (tok : String) (total : ℤ) (st2 : DBState)
    (h : performClaim st u tok = some (total, st2)) :
    previewTotal (st2.ledger.filter (fun r => r.user == u && r.token == tok)) = 0 ∧
      referralClaim st2.ledger u tok = Except.error PreviewErr.nothingToClaim := by
  obtain ⟨hled, -, h1, -, -⟩ := performClaim_some st u tok total st2 h
  have hz : previewTotal (st2.ledger.filter (fun r => r.user == u && r.token == tok)) = 0 := by
    rw [hled]; exact previewTotal_after_claim st.ledger u tok
  refine ⟨hz, ?_⟩
  unfold referralClaim
  rw [hled, filter_claimUpdate_isEmpty, if_neg h1,
    if_pos (le_of_eq (previewTotal_after_claim st.ledger u tok))]

/-- Witness for C5: user 2 holds 40 unclaimed cashback in USDC next to a
treasury row; the claim succeeds with 40 and the preview then reports
nothing to claim. -/
theorem performClaim_exhausts_witness :
    performClaim
        ⟨[], [], [], [⟨2, "cashback", "USDC", 50, 10⟩, ⟨2, "treasury", "USDC", 999, 0⟩], []⟩
        2 "USDC" =
      some (40, ⟨[], [], [],
        [⟨2, "cashback", "USDC", 50, 50⟩, ⟨2, "treasury", "USDC", 999, 0⟩],
        [⟨2, "USDC", 40, "pending"⟩]⟩) ∧
    previewTotal
        (([⟨2, "cashback", "USDC", 50, 50⟩, ⟨2, "treasury", "USDC", 999, 0⟩] : List LRow).filter
          (fun r => r.user == 2 && r.token == "USDC")) = 0 ∧
    referralClaim [⟨2, "cashback", "USDC", 50, 50⟩, ⟨2, "treasury", "USDC", 999, 0⟩] 2 "USDC" =
      Except.error PreviewErr.nothingToClaim :=
  ⟨by rfl,
   performClaim_exhausts
     ⟨[], [], [], [⟨2, "cashback", "USDC", 50, 10⟩, ⟨2, "treasury", "USDC", 999, 0⟩], []⟩
     2 "USDC" 40
     ⟨[], [], [], [⟨2, "cashback", "USDC", 50, 50⟩, ⟨2, "treasury", "USDC", 999, 0⟩],
       [⟨2, "USDC", 40, "pending"⟩]⟩
     (by rfl)⟩

/-- C6: a successful perform_claim only rewrites ledger rows of the
claimable kinds belonging to the claiming (user, token): the table keeps
its length, a row whose kind is treasury, whose kind is not claimable,
or which belongs to another user or token is returned unchanged, and
every row keeps its user, kind, token and accrued amount — the only
possible change is claimed becoming accrued. -/
theorem performClaim_frame (st : DBState) (u : ℕ) (tok : String) (total : ℤ) (st2 : DBState)
    (h : performClaim st u tok = some (total, st2)) :
    st2.ledger.length = st.ledger.length ∧
    ∀ i : ℕ, ∀ hi : i < st.ledger.length, ∀ hi2 : i < st2.ledger.length,
      ((st.ledger.get ⟨i, hi⟩).kind = "treasury" ∨
          CLAIMABLE_KINDS.contains (st.ledger.get ⟨i, hi⟩).kind = false ∨
          (st.ledger.get ⟨i, hi⟩).user ≠ u ∨ (st.ledger.get ⟨i, hi⟩).token ≠ tok →
        st2.ledger.get ⟨i, hi2⟩ = st.ledger.get ⟨i, hi⟩) ∧
      (st2.ledger.get ⟨i, hi2⟩).user = (st.ledger.get ⟨i, hi⟩).user ∧
      (st2.ledger.get ⟨i, hi2⟩).kind = (st.ledger.get ⟨i, hi⟩).kind ∧
      (st2.ledger.get ⟨i, hi2⟩).token = (st.ledger.get ⟨i, hi⟩).token ∧
      (st2.ledger.get ⟨i, hi2⟩).accrued = (st.ledger.get ⟨i, hi⟩).accrued ∧
      (st2.ledger.get ⟨i, hi2⟩ = st.ledger.get ⟨i, hi⟩ ∨
        st2.ledger.get ⟨i, hi2⟩ =
          { st.ledger.get ⟨i, hi⟩ with claimed := (st.ledger.get ⟨i, hi⟩).accrued }) := by
  obtain ⟨hled, -, -, -, -⟩ := performClaim_some st u tok total st2 h
  constructor
  · rw [hled]; unfold claimUpdate; exact List.length_map _ _
  · intro i hi hi2
    have hi2b : i < (claimUpdate st.ledger u tok).length := by
      rw [← hled]; exact hi2
    have hget : st2.ledger.get ⟨i, hi2⟩ =
        claimUpdF u tok (st.ledger.get ⟨i, hi⟩) :=
      (get_congr_list st2.ledger (claimUpdate st.ledger u tok) hled i hi2 hi2b).trans
        (get_claimUpdate st.ledger u tok i hi hi2b)
    refine ⟨?_, ?_, ?_, ?_, ?_, ?_⟩
    · intro hcase
      rw [hget]
      apply claimUpdF_id
      rcases hcase with hk | hk | hu | ht
      · right; right; rw [hk]; rfl
      · right; right; exact hk
      · left; exact hu
      · right; left; exact ht
    · rw [hget]; exact claimUpdF_user u tok _
    · rw [hget]; exact claimUpdF_kind u tok _
    · rw [hget]; exact claimUpdF_token u tok _
    · rw [hget]; exact claimUpdF_accrued u tok _
    · rw [hget]
      unfold claimUpdF
      split
      · right; rfl
      · left; rfl

/-- Witness for C6: claiming user 2's USDC leaves the treasury row, user
3's row and user 2's ETH row exactly as they were, and only rewrites the
claimed field of the matching cashback row. -/
theorem performClaim_frame_witness :
    performClaim
        ⟨[], [], [],
          [⟨2, "cashback", "USDC", 50, 10⟩, ⟨2, "treasury", "USDC", 999, 0⟩,
            ⟨3, "cashback", "USDC", 7, 0⟩, ⟨2, "cashback", "ETH", 5, 0⟩], []⟩
        2 "USDC" =
      some (40, ⟨[], [], [],
        [⟨2, "cashback", "USDC", 50, 50⟩, ⟨2, "treasury", "USDC", 999, 0⟩,
          ⟨3, "cashback", "USDC", 7, 0⟩, ⟨2, "cashback", "ETH", 5, 0⟩],
        [⟨2, "USDC", 40, "pending"⟩]⟩) ∧
    ([⟨2, "cashback", "USDC", 50, 50⟩, ⟨2, "treasury", "USDC", 999, 0⟩,
        ⟨3, "cashback", "USDC", 7, 0⟩, ⟨2, "cashback", "ETH", 5, 0⟩] : List LRow).length =
      ([⟨2, "cashback", "USDC", 50, 10⟩, ⟨2, "treasury", "USDC", 999, 0⟩,
        ⟨3, "cashback", "USDC", 7, 0⟩, ⟨2, "cashback", "ETH", 5, 0⟩] : List LRow).length ∧
    (([⟨2, "cashback", "USDC", 50, 10⟩, ⟨2, "treasury", "USDC", 999, 0⟩,
          ⟨3, "cashback", "USDC", 7, 0⟩, ⟨2, "cashback", "ETH", 5, 0⟩] : List LRow).get
        ⟨1, by decide⟩).kind = "treasury" ∧
    ([⟨2, "cashback", "USDC", 50, 50⟩, ⟨2, "treasury", "USDC", 999, 0⟩,
        ⟨3, "cashback", "USDC", 7, 0⟩, ⟨2, "cashback", "ETH", 5, 0⟩] : List LRow).get
        ⟨1, by decide⟩ =
      ([⟨2, "cashback", "USDC", 50, 10⟩, ⟨2, "treasury", "USDC", 999, 0⟩,
          ⟨3, "cashback", "USDC", 7, 0⟩, ⟨2, "cashback", "ETH", 5, 0⟩] : List LRow).get
        ⟨1, by decide⟩ := by
  have hmain := performClaim_frame
    ⟨[], [], [],
      [⟨2, "cashback", "USDC", 50, 10⟩, ⟨2, "treasury", "USDC", 999, 0⟩,
        ⟨3, "cashback", "USDC", 7, 0⟩, ⟨2, "cashback", "ETH", 5, 0⟩], []⟩
    2 "USDC" 40
    ⟨[], [], [],
      [⟨2, "cashback", "USDC", 50, 50⟩, ⟨2, "treasury", "USDC", 999, 0⟩,
        ⟨3, "cashback", "USDC", 7, 0⟩, ⟨2, "cashback", "ETH", 5, 0⟩],
      [⟨2, "USDC", 40, "pending"⟩]⟩
    (by rfl)
  refine ⟨by rfl, hmain.1, by rfl, ?_⟩
  exact (hmain.2 1 (by decide) (by decide)).1 (Or.inl (by rfl))

lemma dedupGo_mem (ks : List (String × String)) :
    ∀ acc x, x ∈ dedupGo acc ks ↔ x ∈ acc ∨ x ∈ ks := by
  induction ks with
  | nil => intro acc x; simp [dedupGo]
  | cons kk ks ih =>
    intro acc x
    simp only [dedupGo]
    cases hc : acc.contains kk with
    | false =>
      rw [if_neg (by simp [hc]), ih]
      simp only [List.mem_append, List.mem_singleton, List.mem_cons]
      tauto
    | true =>
      rw [if_pos (by simp [hc]), ih]
      have hkk : kk ∈ acc := by simpa using hc
      simp only [List.mem_cons]
      constructor
      · rintro (h | h)
        · exact Or.inl h
        · exact Or.inr (Or.inr h)
      · rintro (h | h | h)
        · exact Or.inl h
        · exact Or.inl (h ▸ hkk)
        · exact Or.inr h

lemma dedupGo_nodup (ks : List (String × String)) :
    ∀ acc, acc.Nodup → (dedupGo acc ks).Nodup := by
  induction ks with
  | nil => intro acc h; exact h
  | cons kk ks ih =>
    intro acc h
    simp only [dedupGo]
    cases hc : acc.contains kk with
    | false =>
      rw [if_neg (by simp [hc])]
      apply ih
      have hnk : kk ∉ acc := by simpa using hc
      simp [List.nodup_append, h, hnk]
    | true =>
      rw [if_pos (by simp [hc])]
      exact ih acc h

lemma kindSum_groupRows (k : String) (rows : List DbEntry) :
    kindSum k (groupRows rows) = keyKindSum k rows (dedupGo [] (rows.map keyOf)) := by
  unfold groupRows
  generalize dedupGo [] (rows.map keyOf) = ks
  induction ks with
  | nil => rfl
  | cons kk ks ih => simp only [List.map_cons, kindSum, keyKindSum, ih]

lemma keyKindSum_nil (k : String) (ks : List (String × String)) :
    keyKindSum k [] ks = 0 := by
  induction ks with
  | nil => rfl
  | cons kk ks ih =>
    simp only [keyKindSum, keySum, ih, add_zero]
    split <;> rfl

lemma keyKindSum_cons (k : String) (e : DbEntry) (es : List DbEntry)
    (ks : List (String × String)) :
    keyKindSum k (e :: es) ks = hitAmt k e ks + keyKindSum k es ks := by
  induction ks with
  | nil => simp [keyKindSum, hitAmt]
  | cons kk ks ih =>
    simp only [keyKindSum, hitAmt, keySum, ih]
    by_cases h1 : kk.1 = k <;> by_cases h2 : keyOf e = kk <;> simp [h1, h2] <;> ring

lemma hitAmt_zero (k : String) (e : DbEntry) (ks : List (String × String))
    (h : keyOf e ∉ ks) : hitAmt k e ks = 0 := by
  induction ks with
  | nil => rfl
  | cons kk ks ih =>
    have h1 : ¬(kk.1 = k ∧ keyOf e = kk) := fun hc =>
      h (by rw [hc.2]; exact List.mem_cons_self _ _)
    have h2 : keyOf e ∉ ks := fun hm => h (List.mem_cons_of_mem _ hm)
    simp only [hitAmt, if_neg h1, ih h2, add_zero]

lemma hitAmt_hit (k : String) (e : DbEntry) (hek : e.kind = k) :
    ∀ ks : List (String × String), ks.Nodup → keyOf e ∈ ks → hitAmt k e ks = e.amount := by
  intro ks
  induction ks with
  | nil => intro _ h; exact absurd h (List.not_mem_nil _)
  | cons kk ks ih =>
    intro hnd hin
    simp only [hitAmt]
    rcases List.mem_cons.mp hin with heq | hm
    · have h1 : kk.1 = k := by rw [← heq]; exact hek
      have h2 : keyOf e ∉ ks := by
        rw [heq]; exact (List.nodup_cons.mp hnd).1
      rw [if_pos ⟨h1, heq⟩, hitAmt_zero k e ks h2, add_zero]
    · have hne : keyOf e ≠ kk := fun hc =>
        (List.nodup_cons.mp hnd).1 (hc ▸ hm)
      rw [if_neg (fun hc => hne hc.2), ih (List.nodup_cons.mp hnd).2 hm, zero_add]

lemma hitAmt_miss (k : String) (e : DbEntry) (hek : ¬ e.kind = k)
    (ks : List (String × String)) : hitAmt k e ks = 0 := by
  induction ks with
  | nil => rfl
  | cons kk ks ih =>
    simp only [hitAmt, ih, add_zero]
    rw [if_neg]
    intro hc
    apply hek
    rw [← hc.2] at hc
    exact hc.1

lemma hitAmt_eval (k : String) (e : DbEntry) (ks : List (String × String))
    (hnd : ks.Nodup) (hcomp : e.kind = k → keyOf e ∈ ks) :
    hitAmt k e ks = if e.kind = k then e.amount else 0 := by
  by_cases hek : e.kind = k
  · rw [if_pos hek]; exact hitAmt_hit k e hek ks hnd (hcomp hek)
  · rw [if_neg hek]; exact hitAmt_miss k e hek ks

lemma keyKindSum_complete (k : String) (ks : List (String × String)) (hnd : ks.Nodup) :
    ∀ rows : List DbEntry, (∀ e ∈ rows, e.kind = k → keyOf e ∈ ks) →
      keyKindSum k rows ks = entrySum k rows := by
  intro rows
  induction rows with
  | nil => intro _; exact keyKindSum_nil k ks
  | cons e es ih =>
    intro hcomp
    rw [keyKindSum_cons,
      hitAmt_eval k e ks hnd (hcomp e (List.mem_cons_self _ _)),
      ih (fun e2 hm hk2 => hcomp e2 (List.mem_cons_of_mem _ hm) hk2)]
    simp only [entrySum]

lemma entrySum_filter (k : String) (rows : List DbEntry) :
    entrySum k rows = ((rows.filter (fun e => e.kind == k)).map (fun e => e.amount)).sum := by
  induction rows with
  | nil => rfl
  | cons e es ih =>
    simp only [entrySum, List.filter_cons]
    by_cases hek : e.kind = k
    · rw [if_pos hek, if_pos (by simp [hek])]
      simp only [List.map_cons, List.sum_cons, ih]
    · rw [if_neg hek, if_neg (by simp [hek]), ih, zero_add]

lemma foldTotals_go (k : String) (hk : k ∈ KNOWN_KINDS) (gs : List (String × String × ℤ)) :
    ∀ tot : String → ℤ,
      gs.foldl (fun tot g =>
        if KNOWN_KINDS.contains g.1 then Function.update tot g.1 (tot g.1 + g.2.2) else tot)
        tot k = tot k + kindSum k gs := by
  induction gs with
  | nil => intro tot; simp [kindSum]
  | cons g gs ih =>
    intro tot
    simp only [List.foldl_cons, kindSum]
    cases hg : KNOWN_KINDS.contains g.1 with
    | false =>
      rw [if_neg (by simp [hg]), ih tot]
      have hne : ¬ g.1 = k := by
        intro hc
        rw [hc] at hg
        have : KNOWN_KINDS.contains k = true := by simp [hk]
        rw [hg] at this
        exact Bool.noConfusion this
      rw [if_neg hne, zero_add]
    | true =>
      rw [if_pos (by simp [hg]), ih _]
      by_cases hgk : g.1 = k
      · rw [if_pos hgk, hgk, Function.update_same]; ring
      · rw [if_neg hgk, Function.update_noteq (fun hc => hgk hc.symm)]; ring

lemma groupRows_nil_of_isEmpty (rows : List DbEntry)
    (h : (groupRows rows).isEmpty = true) : rows = [] := by
  cases rows with
  | nil => rfl
  | cons e es =>
    exfalso
    have hm : keyOf e ∈ dedupGo [] ((e :: es).map keyOf) := by
      rw [dedupGo_mem]
      exact Or.inr (List.mem_map_of_mem _ (List.mem_cons_self _ _))
    unfold groupRows at h
    cases hd : dedupGo [] ((e :: es).map keyOf) with
    | nil => rw [hd] at hm; exact List.not_mem_nil _ hm
    | cons a l => rw [hd] at h; simp at h

lemma filter_stronger_nil (entries : List DbEntry) (p q : DbEntry → Bool)
    (himp : ∀ e, q e = true → p e = true)
    (h : entries.filter p = []) : entries.filter q = [] := by
  rw [List.filter_eq_nil_iff] at h ⊢
  exact fun e he hq => h e he (himp e hq)

lemma filter_window_kind (entries : List DbEntry) (u : ℕ) (k : String) (fromT toT : Option ℤ) :
    (entries.filter (fun e => e.beneficiary == u && windowOK fromT toT e.executedAt)).filter
        (fun e => e.kind == k) =
      entries.filter (fun e => e.beneficiary == u && e.kind == k &&
        windowOK fromT toT e.executedAt) := by
  induction entries with
  | nil => rfl
  | cons e es ih =>
    simp only [List.filter_cons]
    cases hb : (e.beneficiary == u) <;> cases hk2 : (e.kind == k) <;>
      cases hw2 : windowOK fromT toT e.executedAt <;>
      simp [hb, hk2, hw2, ih, List.filter_cons]

/-- C9: in windowed mode (at least one of from/to supplied), for every
known kind the reported total is the sum of the user's journal entry
amounts of that kind with executed_at inside the half-open window (a
missing bound leaves that side unconstrained), claimed is zero and
unclaimed equals the total. -/
theorem referralEarnings_windowed (entries : List DbEntry) (led : List LRow) (u : ℕ)
    (fromT toT : Option ℤ) (k : String)
    (hw : fromT.isSome = true ∨ toT.isSome = true) (hk : k ∈ KNOWN_KINDS) :
    (referralEarnings entries led u fromT toT).totals k =
      ((entries.filter (fun e => e.beneficiary == u && e.kind == k &&
          windowOK fromT toT e.executedAt)).map (fun e => e.amount)).sum ∧
    (referralEarnings entries led u fromT toT).claimed k = 0 ∧
    (referralEarnings entries led u fromT toT).unclaimed k =
      (referralEarnings entries led u fromT toT).totals k := by
  have hcond : (fromT.isSome || toT.isSome) = true := by
    rcases hw with h | h <;> simp [h]
  unfold referralEarnings
  rw [if_pos hcond]
  unfold referralEarningsRange
  by_cases hemp : (earningsRows entries u fromT toT).isEmpty = true
  · rw [if_pos hemp]
    have hnil : entries.filter
        (fun e => e.beneficiary == u && windowOK fromT toT e.executedAt) = [] :=
      groupRows_nil_of_isEmpty _ hemp
    have hnil2 : entries.filter (fun e => e.beneficiary == u && e.kind == k &&
        windowOK fromT toT e.executedAt) = [] := by
      apply filter_stronger_nil entries _ _ _ hnil
      intro e hq
      simp only [Bool.and_eq_true] at hq ⊢
      exact ⟨hq.1.1, hq.2⟩
    rw [hnil2]
    exact ⟨rfl, rfl, rfl⟩
  · rw [if_neg hemp]
    have hcomp : ∀ e ∈ entries.filter
        (fun e => e.beneficiary == u && windowOK fromT toT e.executedAt),
        e.kind = k → keyOf e ∈ dedupGo [] ((entries.filter
          (fun e => e.beneficiary == u && windowOK fromT toT e.executedAt)).map keyOf) := by
      intro e hm _
      rw [dedupGo_mem]
      exact Or.inr (List.mem_map_of_mem _ hm)
    have htot : foldTotals (earningsRows entries u fromT toT) k =
        ((entries.filter (fun e => e.beneficiary == u && e.kind == k &&
          windowOK fromT toT e.executedAt)).map (fun e => e.amount)).sum := by
      unfold foldTotals
      rw [foldTotals_go k hk, zero_add]
      unfold earningsRows
      rw [kindSum_groupRows,
        keyKindSum_complete k _ (dedupGo_nodup _ [] List.nodup_nil) _ hcomp,
        entrySum_filter, filter_window_kind]
    exact ⟨htot, rfl, sub_zero _⟩

/-- Witness for C9: user 2 has two in-window candidates but only the
entry at time 200 falls in [150, 250); the cashback total is its amount,
claimed is zero and unclaimed equals the total. -/
theorem referralEarnings_windowed_witness :
    ((some (150 : ℤ)).isSome = true ∨ (some (250 : ℤ)).isSome = true) ∧
    "cashback" ∈ KNOWN_KINDS ∧
    (referralEarnings
        [⟨1, "arb", 2, "cashback", "USDC", 20000000, 100⟩,
         ⟨1, "arb", 2, "cashback", "USDC", 5000000, 200⟩,
         ⟨1, "arb", 2, "treasury", "USDC", 180000000, 100⟩,
         ⟨2, "arb", 3, "cashback", "USDC", 7, 160⟩]
        [] 2 (some 150) (some 250)).totals "cashback" = 5000000 ∧
    ((referralEarnings
        [⟨1, "arb", 2, "cashback", "USDC", 20000000, 100⟩,
         ⟨1, "arb", 2, "cashback", "USDC", 5000000, 200⟩,
         ⟨1, "arb", 2, "treasury", "USDC", 180000000, 100⟩,
         ⟨2, "arb", 3, "cashback", "USDC", 7, 160⟩]
        [] 2 (some 150) (some 250)).totals "cashback" =
      ((([⟨1, "arb", 2, "cashback", "USDC", 20000000, 100⟩,
          ⟨1, "arb", 2, "cashback", "USDC", 5000000, 200⟩,
          ⟨1, "arb", 2, "treasury", "USDC", 180000000, 100⟩,
          ⟨2, "arb", 3, "cashback", "USDC", 7, 160⟩] : List DbEntry).filter
          (fun e => e.beneficiary == 2 && e.kind == "cashback" &&
            windowOK (some 150) (some 250) e.executedAt)).map (fun e => e.amount)).sum ∧
     (referralEarnings
        [⟨1, "arb", 2, "cashback", "USDC", 20000000, 100⟩,
         ⟨1, "arb", 2, "cashback", "USDC", 5000000, 200⟩,
         ⟨1, "arb", 2, "treasury", "USDC", 180000000, 100⟩,
         ⟨2, "arb", 3, "cashback", "USDC", 7, 160⟩]
        [] 2 (some 150) (some 250)).claimed "cashback" = 0 ∧
     (referralEarnings
        [⟨1, "arb", 2, "cashback", "USDC", 20000000, 100⟩,
         ⟨1, "arb", 2, "cashback", "USDC", 5000000, 200⟩,
         ⟨1, "arb", 2, "treasury", "USDC", 180000000, 100⟩,
         ⟨2, "arb", 3, "cashback", "USDC", 7, 160⟩]
        [] 2 (some 150) (some 250)).unclaimed "cashback" =
      (referralEarnings
        [⟨1, "arb", 2, "cashback", "USDC", 20000000, 100⟩,
         ⟨1, "arb", 2, "cashback", "USDC", 5000000, 200⟩,
         ⟨1, "arb", 2, "treasury", "USDC", 180000000, 100⟩,
         ⟨2, "arb", 3, "cashback", "USDC", 7, 160⟩]
        [] 2 (some 150) (some 250)).totals "cashback") :=
  ⟨Or.inl rfl, by decide, by rfl,
   referralEarnings_windowed
     [⟨1, "arb", 2, "cashback", "USDC", 20000000, 100⟩,
      ⟨1, "arb", 2, "cashback", "USDC", 5000000, 200⟩,
      ⟨1, "arb", 2, "treasury", "USDC", 180000000, 100⟩,
      ⟨2, "arb", 3, "cashback", "USDC", 7, 160⟩]
     [] 2 (some 150) (some 250) "cashback" (Or.inl rfl) (by decide)⟩
